import Mathlib

/-!
# Greedy feature-subset search (`main.cpp`): embedding and verification

The file embeds the search driver of `main.cpp` (`Feature_Set`, `is_in`,
`Forward`, `Backward`) together with the part of `std::priority_queue` the
driver relies on (binary-heap `push`, `top`, `pop`, `empty`).

Modelling decisions.

* `double accuracy` is a rational number.  The driver only compares and copies
  accuracies; every finite `double` is a rational and `<` on finite doubles is
  `<` on the rationals.
* `int` feature indices are `Int`; `int size` is a `Nat` (it is the `size()` of a
  vector, and the loops `for (i = 0; i < size; ++i)` never overflow).
* `Problem` comes from `problem.h`, which is not part of the sources at hand;
  the two member functions the driver calls are taken as parameters.
* `cout` is a list of output events; the arguments handed to
  `prob.Nearest_N` are logged in call order in the field `evaluated`.
* `pri_que.top()` on an empty queue is undefined behaviour: `top` returns an
  `Option` and a round that would read the top of an empty queue yields `none`.
-/

namespace FeatureSelection

/-! ## Data model -/

/-- The `struct Feature_Set`: a list of feature indices and its accuracy. -/
structure Feature_Set where
  accuracy : ℚ
  feat_in : List Int
  deriving DecidableEq

/-- A default-constructed `Feature_Set` whose accuracy has been set to `0`
(`Feature_Set max; max.accuracy = 0;`): the index vector is empty. -/
instance : Inhabited Feature_Set := ⟨⟨0, []⟩⟩

/-- The member `Feature_Set::operator<`: compares the accuracies only. -/
def Feature_Set.lt (a rhs : Feature_Set) : Bool :=
  decide (a.accuracy < rhs.accuracy)

/-- The two member functions of `Problem` (declared in `problem.h`) used by the
driver: `Nearest_N`, the accuracy of a feature subset, and `dataset_size`. -/
structure Problem where
  Nearest_N : List Int → ℚ
  dataset_size : Nat

/-- The function `is_in(index, v)`: linear scan of `v` from the front. -/
def is_in (index : Int) : List Int → Bool
  | [] => false
  | x :: v => if index = x then true else is_in index v

/-! ## `std::priority_queue<Feature_Set>`

The container is the underlying vector `c`, kept as a binary max-heap with
respect to `Feature_Set::operator<`. -/

/-- The loop of `std::__push_heap` with `topIndex = 0`: the hole moves up while
its parent is `<` the value; the value is then stored in the hole.  The first
argument bounds the number of iterations (`holeIndex` is enough, see
`push_heap_loop_fuel`). -/
def push_heap_loop (value : Feature_Set) : Nat → List Feature_Set → Nat → List Feature_Set
  | 0, c, holeIndex => c.set holeIndex value
  | fuel + 1, c, holeIndex =>
    let parent := (holeIndex - 1) / 2
    if holeIndex > 0 ∧ (c.getD parent default).lt value = true then
      push_heap_loop value fuel (c.set holeIndex (c.getD parent default)) parent
    else
      c.set holeIndex value

/-- The member `priority_queue::push`: `c.push_back(x)` followed by
`std::push_heap`. -/
def push (c : List Feature_Set) (x : Feature_Set) : List Feature_Set :=
  let c := c ++ [x]
  push_heap_loop x (c.length - 1) c (c.length - 1)

/-- The member `priority_queue::top`: `c.front()`; undefined on an empty
queue. -/
def top (c : List Feature_Set) : Option Feature_Set := c.head?

/-- The member `priority_queue::empty`. -/
def empty (c : List Feature_Set) : Bool := c.isEmpty

/-- The first loop of `std::__adjust_heap`: the hole moves down to the larger
child while a right child exists.  Returns the vector, `holeIndex` and
`secondChild`. -/
def adjust_heap_loop (len : Nat) :
    Nat → List Feature_Set → Nat → Nat → List Feature_Set × Nat × Nat
  | 0, c, holeIndex, secondChild => (c, holeIndex, secondChild)
  | fuel + 1, c, holeIndex, secondChild =>
    if secondChild < (len - 1) / 2 then
      let secondChild := 2 * (secondChild + 1)
      let secondChild :=
        if (c.getD secondChild default).lt (c.getD (secondChild - 1) default) = true
        then secondChild - 1 else secondChild
      adjust_heap_loop len fuel (c.set holeIndex (c.getD secondChild default))
        secondChild secondChild
    else (c, holeIndex, secondChild)

/-- The call `std::__adjust_heap(first, 0, len, value)`: the loop, the step for
a last node with a single child, and the final `std::__push_heap` from the
hole. -/
def adjust_heap (c : List Feature_Set) (len : Nat) (value : Feature_Set) : List Feature_Set :=
  match adjust_heap_loop len len c 0 0 with
  | (c, holeIndex, secondChild) =>
    if len % 2 = 0 ∧ secondChild = (len - 2) / 2 then
      let secondChild := 2 * (secondChild + 1)
      let c := c.set holeIndex (c.getD (secondChild - 1) default)
      let holeIndex := secondChild - 1
      push_heap_loop value holeIndex c holeIndex
    else
      push_heap_loop value holeIndex c holeIndex

/-- The member `priority_queue::pop`: `std::pop_heap` followed by
`c.pop_back()`. -/
def pop (c : List Feature_Set) : List Feature_Set :=
  let c :=
    if c.length > 1 then
      let last := c.length - 1
      let value := c.getD last default
      let c := c.set last (c.getD 0 default)
      adjust_heap c last value
    else c
  c.dropLast

/-- The loop `while(!pri_que.empty()) pri_que.pop();`. -/
def clear_loop : Nat → List Feature_Set → List Feature_Set
  | 0, c => c
  | fuel + 1, c => if empty c = true then c else clear_loop fuel (pop c)

/-- The queue after `while(!pri_que.empty()) pri_que.pop();`; every `pop`
shortens the vector by one, so `c.length` iterations are enough. -/
def clear (c : List Feature_Set) : List Feature_Set := clear_loop c.length c

/-! ## The search driver -/

/-- What the driver writes to `cout`. -/
inductive Out where
  /-- The line "This dataset has ... features with ... Instances:". -/
  | header (size instances : Nat)
  /-- A call of `Feature_Set::print`. -/
  | print (s : Feature_Set)
  /-- The line "Warning: accuracy decreasing, continuing search...". -/
  | warning
  /-- The text "the best feature subset is " followed by `max.print()`. -/
  | best (s : Feature_Set)
  deriving DecidableEq

/-- The local variables of `Forward` / `Backward`, the output written so far
and the log of the subsets handed to `prob.Nearest_N`. -/
structure State where
  pri_que : List Feature_Set
  max : Feature_Set
  temp : Feature_Set
  y : List Int
  warn : Bool
  out : List Out
  evaluated : List (List Int)
  deriving DecidableEq

/-- The statements shared by `Forward` and `Backward` after the inner loop:
read the top of the queue, update `max`, warn once, print, update `y` and
empty the queue. -/
def select (st : State) : Option State :=
  match top st.pri_que with
  | none => none
  | some temp =>
    let max := if temp.accuracy > st.max.accuracy then temp else st.max
    let fire := st.warn && decide (temp.accuracy < max.accuracy)
    some { st with
      pri_que := clear st.pri_que
      max := max
      temp := temp
      y := temp.feat_in
      warn := if fire then false else st.warn
      out := (if fire then st.out ++ [Out.warning] else st.out) ++ [Out.print temp] }

/-- One pass of the body of the inner loop of `Forward` for the index `i`. -/
def ForwardTry (prob : Problem) (st : State) (i : Nat) : State :=
  let sel_features := st.y
  if is_in (i : Int) sel_features = true then st
  else
    let sel_features := sel_features ++ [(i : Int)]
    let set : Feature_Set := ⟨prob.Nearest_N sel_features, sel_features⟩
    { st with
      pri_que := push st.pri_que set
      evaluated := st.evaluated ++ [sel_features] }

/-- One round (one pass of the body of the outer loop) of `Forward`. -/
def ForwardRound (prob : Problem) (size : Nat) (st : State) : Option State :=
  select ((List.range size).foldl (ForwardTry prob) st)

/-- The state of `Forward` when the outer loop is entered. -/
def ForwardInit (prob : Problem) (size : Nat) : State :=
  let y : List Int := []
  let temp : Feature_Set := ⟨prob.Nearest_N y, y⟩
  { pri_que := []
    max := ⟨0, []⟩
    temp := temp
    y := y
    warn := true
    out := [Out.header size prob.dataset_size, Out.print temp]
    evaluated := [y] }

/-- The state of `Forward` after the first `k` rounds. -/
def ForwardRounds (prob : Problem) (size : Nat) : Nat → Option State
  | 0 => some (ForwardInit prob size)
  | k + 1 => (ForwardRounds prob size k).bind (ForwardRound prob size)

/-- The function `Forward(prob, size)`: `size` rounds, then the best subset is
printed. -/
def Forward (prob : Problem) (size : Nat) : Option State :=
  (ForwardRounds prob size size).map
    fun st => { st with out := st.out ++ [Out.best st.max] }

/-- The statement `sel_features.erase(remove(sel_features.begin(),
sel_features.end(), i), sel_features.end())`: every occurrence of `i` is
removed. -/
def erase_remove (v : List Int) (i : Int) : List Int :=
  v.filter fun x => !(x == i)

/-- One pass of the body of the inner loop of `Backward` for the index `i`. -/
def BackwardTry (prob : Problem) (st : State) (i : Nat) : State :=
  let sel_features := st.y
  if is_in (i : Int) sel_features = false then st
  else
    let sel_features := erase_remove sel_features (i : Int)
    let set : Feature_Set := ⟨prob.Nearest_N sel_features, sel_features⟩
    { st with
      pri_que := push st.pri_que set
      evaluated := st.evaluated ++ [sel_features] }

/-- One round of `Backward`. -/
def BackwardRound (prob : Problem) (size : Nat) (st : State) : Option State :=
  select ((List.range size).foldl (BackwardTry prob) st)

/-- The state of `Backward` when the outer loop is entered: `y` holds
`0, ..., size - 1`. -/
def BackwardInit (prob : Problem) (size : Nat) : State :=
  let y : List Int := (List.range size).foldl (fun (y : List Int) (i : Nat) => y ++ [(i : Int)]) []
  let temp : Feature_Set := ⟨prob.Nearest_N y, y⟩
  { pri_que := []
    max := ⟨0, []⟩
    temp := temp
    y := y
    warn := true
    out := [Out.header size prob.dataset_size, Out.print temp]
    evaluated := [y] }

/-- The state of `Backward` after the first `k` rounds. -/
def BackwardRounds (prob : Problem) (size : Nat) : Nat → Option State
  | 0 => some (BackwardInit prob size)
  | k + 1 => (BackwardRounds prob size k).bind (BackwardRound prob size)

/-- The function `Backward(prob, size)`: `size` rounds, then the best subset is
printed. -/
def Backward (prob : Problem) (size : Nat) : Option State :=
  (BackwardRounds prob size size).map
    fun st => { st with out := st.out ++ [Out.best st.max] }

/-! ## Vocabulary of the statements -/

/-- The scored subset built for a candidate: `set.feat_in = sel_features;
set.accuracy = prob.Nearest_N(sel_features);`. -/
def score (prob : Problem) (s : List Int) : Feature_Set :=
  ⟨prob.Nearest_N s, s⟩

/-- The candidates of a round of forward selection with current subset `S`,
as the specification words them: `S` with one index `i` appended, for each `i`
in `[0, size)` not in `S`, in ascending `i`. -/
def ForwardCandidates (size : Nat) (S : List Int) : List (List Int) :=
  ((List.range size).filter fun i : Nat => decide ((i : Int) ∉ S)).map
    fun i : Nat => S ++ [(i : Int)]

/-- The candidates of a round of backward elimination with current subset
`S`, as the specification words them: `S` with the index `i` removed, for each
`i` in `S`, in ascending `i`. -/
def BackwardCandidates (size : Nat) (S : List Int) : List (List Int) :=
  ((List.range size).filter fun i : Nat => decide ((i : Int) ∈ S)).map
    fun i : Nat => S.filter fun x => decide (x ≠ (i : Int))

/-- The state reached from `st` by a round that selected `sel`; `ev` is the log
of evaluated subsets at the end of the round. -/
def afterRound (st : State) (ev : List (List Int)) (sel : Feature_Set) : State :=
  let max := if sel.accuracy > st.max.accuracy then sel else st.max
  let fire := st.warn && decide (sel.accuracy < max.accuracy)
  { pri_que := []
    max := max
    temp := sel
    y := sel.feat_in
    warn := if fire then false else st.warn
    out := (if fire then st.out ++ [Out.warning] else st.out) ++ [Out.print sel]
    evaluated := ev }

/-- Whether an output event is a call of `Feature_Set::print`. -/
def Out.isPrint : Out → Bool
  | Out.print _ => true
  | _ => false

/-- A valid feature subset, as the specification words it: no index occurs
twice and every index lies in `[0, size)`. -/
def validSubset (size : Nat) (S : List Int) : Prop :=
  S.Nodup ∧ ∀ x ∈ S, 0 ≤ x ∧ x < (size : Int)

instance (size : Nat) (S : List Int) : Decidable (validSubset size S) := by
  unfold validSubset
  infer_instance

/-- The scored subset selected in round `j` (counted from `0`) of a run whose
state after `k` rounds is `R k`: the value of `temp` after that round. -/
def selectedIn (R : Nat → Option State) (j : Nat) : Feature_Set :=
  match R (j + 1) with
  | some st => st.temp
  | none => default

/-- Whether round `r` of the run `R` selected a subset whose accuracy is
strictly below the tracked best: the comparison `temp.accuracy < max.accuracy`
of the round, read after `max` has been updated. -/
def regressedIn (R : Nat → Option State) (r : Nat) : Bool :=
  match R (r + 1) with
  | some st => decide (st.temp.accuracy < st.max.accuracy)
  | none => false

/-- Whether round `r` of the run `R` wrote the warning: its output is the
warning line followed by the `print` of the selected subset. -/
def warnedIn (R : Nat → Option State) (r : Nat) : Bool :=
  match R r, R (r + 1) with
  | some st, some st' => decide (st'.out = st.out ++ [Out.warning, Out.print st'.temp])
  | _, _ => false

/-! ## Concrete inputs -/

/-- The evaluator of a fixture with four instances in which feature `0` alone
classifies perfectly and every other subset scores `1/2`. -/
def fixture : Problem :=
  ⟨fun s => if s = [0] then 1 else mkRat 1 2, 4⟩

/-- The evaluator of a one-feature dataset with four instances in which the
empty subset scores `1/2` and the feature scores `1/4`. -/
def emptyScoresHigher : Problem :=
  ⟨fun s => if s = [] then mkRat 1 2 else mkRat 1 4, 4⟩

/-- The evaluator of a one-feature dataset with four instances in which the
empty subset scores `1/4` and the feature scores `0`. -/
def featureScoresZero : Problem :=
  ⟨fun s => if s = [] then mkRat 1 4 else 0, 4⟩

/-- The evaluator of a three-feature dataset with four instances whose rounds
select accuracies `1`, `1/4`, `1/2`: a peak, a drop and a partial recovery. -/
def peakThenRecover : Problem :=
  ⟨fun s => if s = [0] then 1 else if s = [0, 1, 2] then mkRat 1 2 else mkRat 1 4, 4⟩

/-- The evaluator of a two-feature dataset with four instances in which only
the full subset scores above `0`. -/
def onlyFullScores : Problem :=
  ⟨fun s => if s = [0, 1] then mkRat 1 2 else 0, 4⟩

/-! ## The priority queue -/

theorem push_heap_loop_length (v : Feature_Set) :
    ∀ (fuel : Nat) (c : List Feature_Set) (h : Nat),
      (push_heap_loop v fuel c h).length = c.length := by
  intro fuel
  induction fuel with
  | zero => intro c h; simp [push_heap_loop]
  | succ n ih =>
    intro c h
    simp only [push_heap_loop]
    split
    · rw [ih]; simp
    · simp

theorem push_heap_loop_mem (v : Feature_Set) :
    ∀ (fuel : Nat) (c : List Feature_Set) (h : Nat), h < c.length →
      ∀ x ∈ push_heap_loop v fuel c h, x ∈ c ∨ x = v := by
  intro fuel
  induction fuel with
  | zero =>
    intro c h _ x hx
    exact List.mem_or_eq_of_mem_set hx
  | succ n ih =>
    intro c h hlen x hx
    simp only [push_heap_loop] at hx
    split at hx
    · have hp : (h - 1) / 2 < c.length := by omega
      rcases ih _ _ (by simpa using hp) x hx with h1 | h1
      · rcases List.mem_or_eq_of_mem_set h1 with h2 | h2
        · exact Or.inl h2
        · left
          rw [h2, List.getD_eq_getElem _ _ hp]
          exact List.getElem_mem _
      · exact Or.inr h1
    · exact List.mem_or_eq_of_mem_set hx

theorem push_heap_loop_fuel (v : Feature_Set) :
    ∀ (fuel : Nat) (c : List Feature_Set) (h : Nat), h ≤ fuel →
      push_heap_loop v fuel c h = push_heap_loop v h c h := by
  intro fuel
  induction fuel using Nat.strong_induction_on with
  | _ fuel ih =>
    intro c h hle
    cases fuel with
    | zero =>
      have : h = 0 := by omega
      subst this; rfl
    | succ n =>
      cases h with
      | zero => simp [push_heap_loop]
      | succ m =>
        simp only [push_heap_loop]
        split
        · rw [ih n (by omega) _ _ (by omega), ih m (by omega) _ _ (by omega)]
        · rfl

theorem lt_iff (a b : Feature_Set) : a.lt b = true ↔ a.accuracy < b.accuracy := by
  simp [Feature_Set.lt]

/-- The front is not touched when the value is not above the front. -/
theorem push_heap_loop_head_keep (v : Feature_Set) :
    ∀ (fuel : Nat) (c : List Feature_Set) (h : Nat), 0 < h →
      ¬ (c.getD 0 default).accuracy < v.accuracy →
      (push_heap_loop v fuel c h).head? = c.head? := by
  intro fuel
  induction fuel with
  | zero =>
    intro c h hpos _
    cases c with
    | nil => rfl
    | cons a t =>
      cases h with
      | zero => omega
      | succ m => simp [push_heap_loop]
  | succ n ih =>
    intro c h hpos hroot
    have hset : ∀ w : Feature_Set, (c.set h w).head? = c.head? := by
      intro w
      cases c with
      | nil => rfl
      | cons a t =>
        cases h with
        | zero => omega
        | succ m => simp
    have hset0 : ∀ w : Feature_Set, (c.set h w).getD 0 default = c.getD 0 default := by
      intro w
      cases c with
      | nil => rfl
      | cons a t =>
        cases h with
        | zero => omega
        | succ m => simp
    simp only [push_heap_loop]
    split
    · rename_i hc
      have hp : 0 < (h - 1) / 2 := by
        by_contra h0
        have h0 : (h - 1) / 2 = 0 := by omega
        rw [h0, lt_iff] at hc
        exact hroot hc.2
      rw [ih _ _ hp (by rw [hset0]; exact hroot), hset]
    · exact hset v

/-- The value reaches the front when everything before the hole is below it. -/
theorem push_heap_loop_head_new (v : Feature_Set) :
    ∀ (fuel : Nat) (c : List Feature_Set) (h : Nat), h ≤ fuel → 0 < c.length →
      (∀ i, i < h → (c.getD i default).accuracy < v.accuracy) →
      (push_heap_loop v fuel c h).head? = some v := by
  intro fuel
  induction fuel with
  | zero =>
    intro c h hle hlen _
    have : h = 0 := by omega
    subst this
    cases c with
    | nil => simp at hlen
    | cons a t => simp [push_heap_loop]
  | succ n ih =>
    intro c h hle hlen hall
    simp only [push_heap_loop]
    cases h with
    | zero =>
      cases c with
      | nil => simp at hlen
      | cons a t => simp
    | succ m =>
      have hlt : (c.getD ((m + 1 - 1) / 2) default).lt v = true := by
        rw [lt_iff]; exact hall _ (by omega)
      rw [if_pos ⟨by omega, hlt⟩]
      apply ih _ _ (by omega) (by simpa using hlen)
      intro i hi
      have hne : m + 1 ≠ i := by omega
      rw [List.getD_eq_getElem?_getD, List.getElem?_set_ne hne, ← List.getD_eq_getElem?_getD]
      exact hall i (by omega)

theorem push_nil (v : Feature_Set) : push [] v = [v] := by
  simp [push, push_heap_loop]

theorem push_length (c : List Feature_Set) (v : Feature_Set) :
    (push c v).length = c.length + 1 := by
  simp [push, push_heap_loop_length]

theorem push_mem (c : List Feature_Set) (v x : Feature_Set) (hx : x ∈ push c v) :
    x ∈ c ∨ x = v := by
  have h := push_heap_loop_mem v (c.length + 1 - 1) (c ++ [v]) (c.length + 1 - 1)
    (by simp) x (by simpa [push] using hx)
  rcases h with h | h
  · simpa using h
  · exact Or.inr h

/-- Pushing onto a non-empty queue whose front is a maximum: the front is
replaced exactly when the new element is strictly above it. -/
theorem push_cons_head (r v : Feature_Set) (t : List Feature_Set)
    (hmax : ∀ x ∈ r :: t, x.accuracy ≤ r.accuracy) :
    (push (r :: t) v).head? = some (if r.accuracy < v.accuracy then v else r) := by
  have hlen : ((r :: t) ++ [v]).length - 1 = t.length + 1 := by simp
  unfold push
  simp only [hlen]
  by_cases hlt : r.accuracy < v.accuracy
  · rw [if_pos hlt]
    apply push_heap_loop_head_new v _ _ _ (le_refl _) (by simp)
    intro i hi
    have hi' : i < (r :: t).length := by simpa using hi
    rw [List.getD_eq_getElem?_getD, List.getElem?_append_left hi', ← List.getD_eq_getElem?_getD,
      List.getD_eq_getElem _ _ hi']
    exact lt_of_le_of_lt (hmax _ (List.getElem_mem _)) hlt
  · rw [if_neg hlt]
    rw [push_heap_loop_head_keep v _ _ _ (by omega) (by simpa using hlt)]
    rfl

/-- The queue built by pushing the non-empty sequence `cs` onto an empty
queue: its front is the first element of `cs` of maximal accuracy. -/
theorem foldl_push_head (cs : List Feature_Set) (hne : cs ≠ []) :
    ∃ l1 m l2, cs = l1 ++ m :: l2 ∧ (∀ x ∈ l1, x.accuracy < m.accuracy) ∧
      (∀ x ∈ l2, x.accuracy ≤ m.accuracy) ∧ (cs.foldl push []).head? = some m ∧
      (∀ x ∈ cs.foldl push [], x.accuracy ≤ m.accuracy) := by
  induction cs using List.reverseRecOn with
  | nil => exact absurd rfl hne
  | append_singleton cs v ih =>
    rw [List.foldl_append]
    by_cases hcs : cs = []
    · subst hcs
      refine ⟨[], v, [], by simp, by simp, by simp, by simp [push_nil], ?_⟩
      simp [push_nil]
    · obtain ⟨l1, m, l2, hdec, h1, h2, hhead, hall⟩ := ih hcs
      simp only [List.foldl_cons, List.foldl_nil]
      cases hq : cs.foldl push [] with
      | nil => rw [hq] at hhead; simp at hhead
      | cons r t =>
        rw [hq] at hhead hall
        have hr : r = m := by simpa using hhead
        subst hr
        have hp := push_cons_head r v t hall
        by_cases hlt : r.accuracy < v.accuracy
        · rw [if_pos hlt] at hp
          refine ⟨cs, v, [], rfl, ?_, by simp, hp, ?_⟩
          · intro x hx
            rw [hdec] at hx
            rcases List.mem_append.1 hx with hx | hx
            · exact lt_trans (h1 x hx) hlt
            · rcases List.mem_cons.1 hx with hx | hx
              · rw [hx]; exact hlt
              · exact lt_of_le_of_lt (h2 x hx) hlt
          · intro x hx
            rcases push_mem _ _ _ hx with hx | hx
            · exact le_of_lt (lt_of_le_of_lt (hall x hx) hlt)
            · rw [hx]
        · rw [if_neg hlt] at hp
          refine ⟨l1, r, l2 ++ [v], by simp [hdec], h1, ?_, hp, ?_⟩
          · intro x hx
            rcases List.mem_append.1 hx with hx | hx
            · exact h2 x hx
            · simp at hx; rw [hx]; exact not_lt.1 hlt
          · intro x hx
            rcases push_mem _ _ _ hx with hx | hx
            · exact hall x hx
            · rw [hx]; exact not_lt.1 hlt

theorem adjust_heap_loop_length (len : Nat) :
    ∀ (fuel : Nat) (c : List Feature_Set) (h s : Nat),
      (adjust_heap_loop len fuel c h s).1.length = c.length := by
  intro fuel
  induction fuel with
  | zero => intro c h s; rfl
  | succ n ih =>
    intro c h s
    simp only [adjust_heap_loop]
    split
    · rw [ih]; simp
    · rfl

/-- The bound `len` on the iterations of `adjust_heap_loop` is never the reason
the loop stops: `secondChild` grows in every iteration. -/
theorem adjust_heap_loop_fuel (len : Nat) :
    ∀ (fuel : Nat) (c : List Feature_Set) (h s : Nat), len ≤ fuel + s →
      ¬ (adjust_heap_loop len fuel c h s).2.2 < (len - 1) / 2 := by
  intro fuel
  induction fuel with
  | zero =>
    intro c h s hle
    simp only [adjust_heap_loop]
    omega
  | succ n ih =>
    intro c h s hle
    simp only [adjust_heap_loop]
    split
    · apply ih
      split <;> omega
    · assumption

theorem adjust_heap_length (c : List Feature_Set) (len : Nat) (v : Feature_Set) :
    (adjust_heap c len v).length = c.length := by
  unfold adjust_heap
  have h := adjust_heap_loop_length len len c 0 0
  split
  rename_i c1 h1 s1 heq
  rw [heq] at h
  simp only at h
  split <;> simp [push_heap_loop_length, h]

theorem pop_length (c : List Feature_Set) : (pop c).length = c.length - 1 := by
  unfold pop
  split
  · simp [adjust_heap_length]
  · simp

theorem clear_loop_nil :
    ∀ (fuel : Nat) (c : List Feature_Set), c.length ≤ fuel → clear_loop fuel c = [] := by
  intro fuel
  induction fuel with
  | zero =>
    intro c hc
    have : c = [] := List.length_eq_zero.1 (by omega)
    subst this; rfl
  | succ n ih =>
    intro c hc
    simp only [clear_loop]
    split
    · rename_i he
      simpa [empty] using he
    · apply ih
      rw [pop_length]; omega

/-- After `while(!pri_que.empty()) pri_que.pop();` the queue is empty. -/
theorem clear_eq_nil (c : List Feature_Set) : clear c = [] :=
  clear_loop_nil _ _ (le_refl _)

/-! ## The inner loops -/

theorem is_in_iff (index : Int) (v : List Int) : is_in index v = true ↔ index ∈ v := by
  induction v with
  | nil => simp [is_in]
  | cons x v ih =>
    simp only [is_in, List.mem_cons]
    by_cases h : index = x
    · simp [h]
    · simp [h, ih]

theorem erase_remove_eq (v : List Int) (i : Int) :
    erase_remove v i = v.filter fun x => decide (x ≠ i) := by
  unfold erase_remove
  congr 1
  funext x
  by_cases h : x = i <;> simp [h]

theorem ForwardTry_foldl (prob : Problem) :
    ∀ (l : List Nat) (st : State),
      l.foldl (ForwardTry prob) st =
        { st with
          pri_que := (((l.filter fun i : Nat => decide ((i : Int) ∉ st.y)).map
            fun i : Nat => score prob (st.y ++ [(i : Int)])).foldl push st.pri_que)
          evaluated := st.evaluated ++
            ((l.filter fun i : Nat => decide ((i : Int) ∉ st.y)).map fun i : Nat => st.y ++ [(i : Int)]) } := by
  intro l
  induction l with
  | nil => intro st; simp
  | cons i l ih =>
    intro st
    rw [List.foldl_cons, ih]
    by_cases h : (i : Int) ∈ st.y
    · have h1 : is_in (i : Int) st.y = true := (is_in_iff _ _).2 h
      simp [ForwardTry, h1, h]
    · have h1 : ¬ is_in (i : Int) st.y = true := fun hh => h ((is_in_iff _ _).1 hh)
      simp [ForwardTry, h1, h, score]

theorem BackwardTry_foldl (prob : Problem) :
    ∀ (l : List Nat) (st : State),
      l.foldl (BackwardTry prob) st =
        { st with
          pri_que := (((l.filter fun i : Nat => decide ((i : Int) ∈ st.y)).map
            fun i : Nat => score prob (st.y.filter fun x => decide (x ≠ (i : Int)))).foldl
              push st.pri_que)
          evaluated := st.evaluated ++
            ((l.filter fun i : Nat => decide ((i : Int) ∈ st.y)).map
              fun i : Nat => st.y.filter fun x => decide (x ≠ (i : Int))) } := by
  intro l
  induction l with
  | nil => intro st; simp
  | cons i l ih =>
    intro st
    rw [List.foldl_cons, ih]
    by_cases h : (i : Int) ∈ st.y
    · have h1 : ¬ is_in (i : Int) st.y = false := by
        rw [(is_in_iff _ _).2 h]; simp
      simp [BackwardTry, h1, h, score, erase_remove_eq]
    · have h1 : is_in (i : Int) st.y = false := by
        cases hh : is_in (i : Int) st.y with
        | false => rfl
        | true => exact absurd ((is_in_iff _ _).1 hh) h
      simp [BackwardTry, h1, h]

/-! ## One round -/

theorem foldl_push_score (prob : Problem) (cands : List (List Int)) (hne : cands ≠ []) :
    ∃ l1 sel l2, cands = l1 ++ sel :: l2 ∧
      (∀ c ∈ l1, prob.Nearest_N c < prob.Nearest_N sel) ∧
      (∀ c ∈ l2, prob.Nearest_N c ≤ prob.Nearest_N sel) ∧
      ((cands.map (score prob)).foldl push []).head? = some (score prob sel) := by
  obtain ⟨l1, m, l2, hdec, h1, h2, hhead, _⟩ :=
    foldl_push_head (cands.map (score prob)) (by simpa using hne)
  obtain ⟨a, r, hcands, ha, hr⟩ := List.map_eq_append_iff.1 hdec
  obtain ⟨sel, b, hr', hsel, hb⟩ := List.map_eq_cons_iff.1 hr
  subst hr' ha hb hsel
  refine ⟨a, sel, b, hcands, ?_, ?_, hhead⟩
  · intro c hc
    exact h1 _ (List.mem_map_of_mem _ hc)
  · intro c hc
    exact h2 _ (List.mem_map_of_mem _ hc)

theorem select_of_head (st : State) (m : Feature_Set) (h : st.pri_que.head? = some m) :
    select st = some (afterRound st st.evaluated m) := by
  simp [select, top, h, afterRound, clear_eq_nil]

/-- A round of `Forward` entered with an empty queue and at least one
candidate: all candidates are evaluated in order and the first one of maximal
accuracy is selected. -/
theorem ForwardRound_spec (prob : Problem) (size : Nat) (st : State)
    (hq : st.pri_que = []) (hne : ForwardCandidates size st.y ≠ []) :
    ∃ l1 sel l2, ForwardCandidates size st.y = l1 ++ sel :: l2 ∧
      (∀ c ∈ l1, prob.Nearest_N c < prob.Nearest_N sel) ∧
      (∀ c ∈ l2, prob.Nearest_N c ≤ prob.Nearest_N sel) ∧
      ForwardRound prob size st =
        some (afterRound st (st.evaluated ++ ForwardCandidates size st.y) (score prob sel)) := by
  obtain ⟨l1, sel, l2, hdec, h1, h2, hhead⟩ := foldl_push_score prob _ hne
  refine ⟨l1, sel, l2, hdec, h1, h2, ?_⟩
  unfold ForwardRound
  rw [ForwardTry_foldl, select_of_head _ (score prob sel)]
  · rfl
  · simpa [ForwardCandidates, hq, List.map_map, Function.comp_def] using hhead

/-- A round of `Backward` entered with an empty queue and at least one
candidate. -/
theorem BackwardRound_spec (prob : Problem) (size : Nat) (st : State)
    (hq : st.pri_que = []) (hne : BackwardCandidates size st.y ≠ []) :
    ∃ l1 sel l2, BackwardCandidates size st.y = l1 ++ sel :: l2 ∧
      (∀ c ∈ l1, prob.Nearest_N c < prob.Nearest_N sel) ∧
      (∀ c ∈ l2, prob.Nearest_N c ≤ prob.Nearest_N sel) ∧
      BackwardRound prob size st =
        some (afterRound st (st.evaluated ++ BackwardCandidates size st.y) (score prob sel)) := by
  obtain ⟨l1, sel, l2, hdec, h1, h2, hhead⟩ := foldl_push_score prob _ hne
  refine ⟨l1, sel, l2, hdec, h1, h2, ?_⟩
  unfold BackwardRound
  rw [BackwardTry_foldl, select_of_head _ (score prob sel)]
  · rfl
  · simpa [BackwardCandidates, hq, List.map_map, Function.comp_def] using hhead

/-! ## Counting candidates -/

theorem validSubset_mem (size : Nat) (S : List Int) (hS : validSubset size S) (x : Int)
    (hx : x ∈ S) : ∃ i : Nat, i < size ∧ x = (i : Int) := by
  obtain ⟨h0, h1⟩ := hS.2 x hx
  refine ⟨x.toNat, ?_, ?_⟩ <;> omega

theorem count_in (size : Nat) (S : List Int) (hS : validSubset size S) :
    ((List.range size).filter fun i : Nat => decide ((i : Int) ∈ S)).length = S.length := by
  have hnd : (((List.range size).filter fun i : Nat => decide ((i : Int) ∈ S)).map
      fun i : Nat => (i : Int)).Nodup := by
    apply List.Nodup.map
    · intro a b hab; exact Int.ofNat.inj hab
    · exact (List.nodup_range size).filter _
  have hperm := (List.perm_ext_iff_of_nodup hnd hS.1).2 (by
    intro x
    simp only [List.mem_map, List.mem_filter, List.mem_range, decide_eq_true_eq]
    constructor
    · rintro ⟨i, ⟨_, hi⟩, rfl⟩; exact hi
    · intro hx
      obtain ⟨i, hi, rfl⟩ := validSubset_mem size S hS x hx
      exact ⟨i, ⟨hi, hx⟩, rfl⟩)
  simpa using hperm.length_eq

theorem count_not_in (size : Nat) (S : List Int) (hS : validSubset size S) :
    ((List.range size).filter fun i : Nat => decide ((i : Int) ∉ S)).length = size - S.length := by
  have h := List.length_eq_length_filter_add (l := List.range size)
    (fun i : Nat => decide ((i : Int) ∈ S))
  rw [count_in size S hS, List.length_range] at h
  have h2 : ((List.range size).filter fun i : Nat => decide ((i : Int) ∉ S)) =
      (List.range size).filter fun i : Nat => !(decide ((i : Int) ∈ S)) := by
    congr 1; funext i; simp
  rw [h2]; omega

theorem ForwardCandidates_length (size : Nat) (S : List Int) (hS : validSubset size S) :
    (ForwardCandidates size S).length = size - S.length := by
  rw [ForwardCandidates, List.length_map, count_not_in size S hS]

theorem BackwardCandidates_length (size : Nat) (S : List Int) (hS : validSubset size S) :
    (BackwardCandidates size S).length = S.length := by
  rw [BackwardCandidates, List.length_map, count_in size S hS]

theorem validSubset_length_le (size : Nat) (S : List Int) (hS : validSubset size S) :
    S.length ≤ size := by
  have h := List.length_eq_length_filter_add (l := List.range size)
    (fun i : Nat => decide ((i : Int) ∈ S))
  rw [count_in size S hS, List.length_range] at h
  omega

theorem mem_ForwardCandidates (size : Nat) (S c : List Int) :
    c ∈ ForwardCandidates size S ↔ ∃ i : Nat, i < size ∧ (i : Int) ∉ S ∧ c = S ++ [(i : Int)] := by
  simp only [ForwardCandidates, List.mem_map, List.mem_filter, List.mem_range, decide_eq_true_eq]
  constructor
  · rintro ⟨i, ⟨h1, h2⟩, rfl⟩; exact ⟨i, h1, h2, rfl⟩
  · rintro ⟨i, h1, h2, rfl⟩; exact ⟨i, ⟨h1, h2⟩, rfl⟩

theorem mem_BackwardCandidates (size : Nat) (S c : List Int) :
    c ∈ BackwardCandidates size S ↔
      ∃ i : Nat, i < size ∧ (i : Int) ∈ S ∧ c = S.filter fun x => decide (x ≠ (i : Int)) := by
  simp only [BackwardCandidates, List.mem_map, List.mem_filter, List.mem_range, decide_eq_true_eq]
  constructor
  · rintro ⟨i, ⟨h1, h2⟩, rfl⟩; exact ⟨i, h1, h2, rfl⟩
  · rintro ⟨i, h1, h2, rfl⟩; exact ⟨i, ⟨h1, h2⟩, rfl⟩

theorem validSubset_append (size : Nat) (S : List Int) (i : Nat) (hS : validSubset size S)
    (hi : i < size) (hni : (i : Int) ∉ S) : validSubset size (S ++ [(i : Int)]) := by
  refine ⟨?_, ?_⟩
  · rw [List.nodup_append]
    refine ⟨hS.1, List.nodup_singleton _, ?_⟩
    intro a ha hb
    simp at hb
    subst hb
    exact hni ha
  · intro x hx
    rcases List.mem_append.1 hx with hx | hx
    · exact hS.2 x hx
    · simp at hx; subst hx; omega

theorem validSubset_filter (size : Nat) (S : List Int) (p : Int → Bool)
    (hS : validSubset size S) : validSubset size (S.filter p) :=
  ⟨hS.1.filter _, fun x hx => hS.2 x (List.mem_of_mem_filter hx)⟩

theorem length_filter_ne (S : List Int) (i : Int) (hnd : S.Nodup) (hi : i ∈ S) :
    (S.filter fun x => decide (x ≠ i)).length + 1 = S.length := by
  induction S with
  | nil => simp at hi
  | cons a S ih =>
    rw [List.nodup_cons] at hnd
    by_cases ha : a = i
    · subst ha
      have hself : (S.filter fun x => decide (x ≠ a)) = S := by
        rw [List.filter_eq_self]
        intro x hx
        have : x ≠ a := fun h => hnd.1 (h ▸ hx)
        simpa using this
      rw [List.filter_cons_of_neg (by simp), hself]
      simp
    · have hi' : i ∈ S := by
        rcases List.mem_cons.1 hi with h | h
        · exact absurd h.symm ha
        · exact h
      have := ih hnd.2 hi'
      rw [List.filter_cons_of_pos (by simpa using ha)]
      simp only [List.length_cons]
      omega

/-! ## The rounds of a run -/

theorem validSubset_nil (size : Nat) : validSubset size [] :=
  ⟨List.nodup_nil, fun _ hx => absurd hx (List.not_mem_nil _)⟩

theorem foldl_push_back (l : List Nat) (init : List Int) :
    l.foldl (fun (y : List Int) (i : Nat) => y ++ [(i : Int)]) init =
      init ++ l.map fun i : Nat => (i : Int) := by
  induction l generalizing init with
  | nil => simp
  | cons a l ih => simp [ih]

theorem BackwardInit_y (prob : Problem) (size : Nat) :
    (BackwardInit prob size).y = (List.range size).map fun i : Nat => (i : Int) := by
  simp [BackwardInit, foldl_push_back]

theorem validSubset_full (size : Nat) :
    validSubset size ((List.range size).map fun i : Nat => (i : Int)) := by
  refine ⟨?_, ?_⟩
  · apply List.Nodup.map
    · intro a b hab; exact Int.ofNat.inj hab
    · exact List.nodup_range size
  · intro x hx
    obtain ⟨i, hi, rfl⟩ := List.mem_map.1 hx
    have := List.mem_range.1 hi
    omega

/-- Every round of `Forward` is entered with an empty queue and a valid subset
of `j` indices, evaluates the candidates in order and selects the first one of
maximal accuracy. -/
theorem Forward_step (prob : Problem) (size : Nat) :
    ∀ j, j < size → ∃ st l1 sel l2,
      ForwardRounds prob size j = some st ∧ st.pri_que = [] ∧ validSubset size st.y ∧
      st.y.length = j ∧ ForwardCandidates size st.y = l1 ++ sel :: l2 ∧
      (∀ c ∈ l1, prob.Nearest_N c < prob.Nearest_N sel) ∧
      (∀ c ∈ l2, prob.Nearest_N c ≤ prob.Nearest_N sel) ∧
      ForwardRounds prob size (j + 1) =
        some (afterRound st (st.evaluated ++ ForwardCandidates size st.y) (score prob sel)) := by
  have key : ∀ j st, j < size → ForwardRounds prob size j = some st → st.pri_que = [] →
      validSubset size st.y → st.y.length = j → ∃ l1 sel l2,
      ForwardCandidates size st.y = l1 ++ sel :: l2 ∧
      (∀ c ∈ l1, prob.Nearest_N c < prob.Nearest_N sel) ∧
      (∀ c ∈ l2, prob.Nearest_N c ≤ prob.Nearest_N sel) ∧
      ForwardRounds prob size (j + 1) =
        some (afterRound st (st.evaluated ++ ForwardCandidates size st.y) (score prob sel)) := by
    intro j st hj hst hq hv hlen
    have hne : ForwardCandidates size st.y ≠ [] := by
      intro h
      have := ForwardCandidates_length size st.y hv
      rw [h] at this
      simp at this
      omega
    obtain ⟨l1, sel, l2, hdec, h1, h2, hr⟩ := ForwardRound_spec prob size st hq hne
    exact ⟨l1, sel, l2, hdec, h1, h2, by simp [ForwardRounds, hst, hr]⟩
  intro j
  induction j with
  | zero =>
    intro hj
    obtain ⟨l1, sel, l2, h⟩ := key 0 (ForwardInit prob size) hj rfl rfl (validSubset_nil size) rfl
    exact ⟨_, l1, sel, l2, rfl, rfl, validSubset_nil size, rfl, h⟩
  | succ j ih =>
    intro hj
    obtain ⟨st, l1, sel, l2, hst, hq, hv, hlen, hdec, h1, h2, hnext⟩ := ih (by omega)
    have hsel : sel ∈ ForwardCandidates size st.y := by rw [hdec]; simp
    obtain ⟨i, hi, hni, hseleq⟩ := (mem_ForwardCandidates size st.y sel).1 hsel
    have hv' : validSubset size sel := hseleq ▸ validSubset_append size st.y i hv hi hni
    have hlen' : sel.length = j + 1 := by rw [hseleq]; simp [hlen]
    obtain ⟨l1', sel', l2', h⟩ := key (j + 1) _ hj hnext rfl hv' hlen'
    exact ⟨_, l1', sel', l2', hnext, rfl, hv', hlen', h⟩

/-- Every round of `Backward` is entered with an empty queue and a valid
subset of `size - j` indices, evaluates the candidates in order and selects the
first one of maximal accuracy. -/
theorem Backward_step (prob : Problem) (size : Nat) :
    ∀ j, j < size → ∃ st l1 sel l2,
      BackwardRounds prob size j = some st ∧ st.pri_que = [] ∧ validSubset size st.y ∧
      st.y.length = size - j ∧ BackwardCandidates size st.y = l1 ++ sel :: l2 ∧
      (∀ c ∈ l1, prob.Nearest_N c < prob.Nearest_N sel) ∧
      (∀ c ∈ l2, prob.Nearest_N c ≤ prob.Nearest_N sel) ∧
      BackwardRounds prob size (j + 1) =
        some (afterRound st (st.evaluated ++ BackwardCandidates size st.y) (score prob sel)) := by
  have key : ∀ j st, j < size → BackwardRounds prob size j = some st → st.pri_que = [] →
      validSubset size st.y → st.y.length = size - j → ∃ l1 sel l2,
      BackwardCandidates size st.y = l1 ++ sel :: l2 ∧
      (∀ c ∈ l1, prob.Nearest_N c < prob.Nearest_N sel) ∧
      (∀ c ∈ l2, prob.Nearest_N c ≤ prob.Nearest_N sel) ∧
      BackwardRounds prob size (j + 1) =
        some (afterRound st (st.evaluated ++ BackwardCandidates size st.y) (score prob sel)) := by
    intro j st hj hst hq hv hlen
    have hne : BackwardCandidates size st.y ≠ [] := by
      intro h
      have := BackwardCandidates_length size st.y hv
      rw [h] at this
      simp at this
      omega
    obtain ⟨l1, sel, l2, hdec, h1, h2, hr⟩ := BackwardRound_spec prob size st hq hne
    exact ⟨l1, sel, l2, hdec, h1, h2, by simp [BackwardRounds, hst, hr]⟩
  intro j
  induction j with
  | zero =>
    intro hj
    have hv0 : validSubset size (BackwardInit prob size).y := by
      rw [BackwardInit_y]; exact validSubset_full size
    have hl0 : (BackwardInit prob size).y.length = size - 0 := by
      rw [BackwardInit_y]; simp
    obtain ⟨l1, sel, l2, h⟩ := key 0 (BackwardInit prob size) hj rfl rfl hv0 hl0
    exact ⟨_, l1, sel, l2, rfl, rfl, hv0, hl0, h⟩
  | succ j ih =>
    intro hj
    obtain ⟨st, l1, sel, l2, hst, hq, hv, hlen, hdec, h1, h2, hnext⟩ := ih (by omega)
    have hsel : sel ∈ BackwardCandidates size st.y := by rw [hdec]; simp
    obtain ⟨i, hi, hni, hseleq⟩ := (mem_BackwardCandidates size st.y sel).1 hsel
    have hv' : validSubset size sel := hseleq ▸ validSubset_filter size st.y _ hv
    have hlen' : sel.length = size - (j + 1) := by
      have := length_filter_ne st.y (i : Int) hv.1 hni
      rw [hseleq]; omega
    obtain ⟨l1', sel', l2', h⟩ := key (j + 1) _ hj hnext rfl hv' hlen'
    exact ⟨_, l1', sel', l2', hnext, rfl, hv', hlen', h⟩

/-! ## The tracked best subset -/

theorem afterRound_temp_le_max (st : State) (ev : List (List Int)) (sel : Feature_Set) :
    (afterRound st ev sel).temp.accuracy ≤ (afterRound st ev sel).max.accuracy := by
  simp only [afterRound]
  split
  · exact le_refl _
  · rename_i h; exact not_lt.1 h

theorem afterRound_max_mono (st : State) (ev : List (List Int)) (sel : Feature_Set) :
    st.max.accuracy ≤ (afterRound st ev sel).max.accuracy := by
  simp only [afterRound]
  split
  · rename_i h; exact le_of_lt h
  · exact le_refl _

/-- Along any sequence of states in which each state arises from its
predecessor by a round, the accuracy of `max` never decreases. -/
theorem max_mono_of_steps (R : Nat → Option State) (n : Nat) (h0 : ∃ st, R 0 = some st)
    (hstep : ∀ k, k < n → ∃ st ev sel, R k = some st ∧ R (k + 1) = some (afterRound st ev sel)) :
    ∀ j k, j ≤ k → k ≤ n → ∃ st st', R j = some st ∧ R k = some st' ∧
      st.max.accuracy ≤ st'.max.accuracy := by
  intro j k hjk
  induction k, hjk using Nat.le_induction with
  | base =>
    intro hj
    cases j with
    | zero =>
      obtain ⟨st, hst⟩ := h0
      exact ⟨st, st, hst, hst, le_refl _⟩
    | succ i =>
      obtain ⟨st, ev, sel, _, h⟩ := hstep i (by omega)
      exact ⟨_, _, h, h, le_refl _⟩
  | succ k hjk ih =>
    intro hk
    obtain ⟨st, st', hst, hst', hle⟩ := ih (by omega)
    obtain ⟨st2, ev, sel, h2, h3⟩ := hstep k (by omega)
    rw [hst'] at h2
    cases h2
    exact ⟨st, _, hst, h3, le_trans hle (afterRound_max_mono _ _ _)⟩

theorem Forward_steps (prob : Problem) (size : Nat) :
    ∀ k, k < size → ∃ st ev sel, ForwardRounds prob size k = some st ∧
      ForwardRounds prob size (k + 1) = some (afterRound st ev sel) := by
  intro k hk
  obtain ⟨st, _, sel, _, hst, _, _, _, _, _, _, h⟩ := Forward_step prob size k hk
  exact ⟨st, _, _, hst, h⟩

theorem Backward_steps (prob : Problem) (size : Nat) :
    ∀ k, k < size → ∃ st ev sel, BackwardRounds prob size k = some st ∧
      BackwardRounds prob size (k + 1) = some (afterRound st ev sel) := by
  intro k hk
  obtain ⟨st, _, sel, _, hst, _, _, _, _, _, _, h⟩ := Backward_step prob size k hk
  exact ⟨st, _, _, hst, h⟩

theorem Forward_reach (prob : Problem) (size : Nat) :
    ∀ k, k ≤ size → ∃ st, ForwardRounds prob size k = some st ∧ st.pri_que = [] ∧
      validSubset size st.y ∧ st.y.length = k ∧ st.temp = score prob st.y := by
  intro k hk
  cases k with
  | zero => exact ⟨_, rfl, rfl, validSubset_nil size, rfl, rfl⟩
  | succ j =>
    obtain ⟨st, l1, sel, l2, _, _, hv, hlen, hdec, _, _, hnext⟩ := Forward_step prob size j hk
    have hsel : sel ∈ ForwardCandidates size st.y := by rw [hdec]; simp
    obtain ⟨i, hi, hni, hseleq⟩ := (mem_ForwardCandidates size st.y sel).1 hsel
    refine ⟨_, hnext, rfl, hseleq ▸ validSubset_append size st.y i hv hi hni, ?_, rfl⟩
    show sel.length = j + 1
    rw [hseleq]; simp [hlen]

theorem Backward_reach (prob : Problem) (size : Nat) :
    ∀ k, k ≤ size → ∃ st, BackwardRounds prob size k = some st ∧ st.pri_que = [] ∧
      validSubset size st.y ∧ st.y.length = size - k ∧ st.temp = score prob st.y := by
  intro k hk
  cases k with
  | zero =>
    refine ⟨_, rfl, rfl, ?_, ?_, rfl⟩
    · rw [BackwardInit_y]; exact validSubset_full size
    · rw [BackwardInit_y]; simp
  | succ j =>
    obtain ⟨st, l1, sel, l2, _, _, hv, hlen, hdec, _, _, hnext⟩ := Backward_step prob size j hk
    have hsel : sel ∈ BackwardCandidates size st.y := by rw [hdec]; simp
    obtain ⟨i, hi, hni, hseleq⟩ := (mem_BackwardCandidates size st.y sel).1 hsel
    refine ⟨_, hnext, rfl, hseleq ▸ validSubset_filter size st.y _ hv, ?_, rfl⟩
    show sel.length = size - (j + 1)
    have := length_filter_ne st.y (i : Int) hv.1 hni
    rw [hseleq]; omega

/-! ## The output -/

theorem afterRound_prints (st : State) (ev : List (List Int)) (sel : Feature_Set) :
    ((afterRound st ev sel).out.filter Out.isPrint).length =
      (st.out.filter Out.isPrint).length + 1 := by
  simp only [afterRound]
  split <;> split <;> simp [List.filter_append, Out.isPrint, List.filter_cons]

/-- Along any sequence of states in which each state arises from its
predecessor by a round, `k` rounds have called `print` `k` times. -/
theorem prints_of_steps (R : Nat → Option State) (n : Nat)
    (h0 : ∃ st, R 0 = some st ∧ (st.out.filter Out.isPrint).length = 1)
    (hstep : ∀ k, k < n → ∃ st ev sel, R k = some st ∧ R (k + 1) = some (afterRound st ev sel)) :
    ∀ k, k ≤ n → ∃ st, R k = some st ∧ (st.out.filter Out.isPrint).length = k + 1 := by
  intro k
  induction k with
  | zero => intro _; exact h0
  | succ k ih =>
    intro hk
    obtain ⟨st, hst, hp⟩ := ih (by omega)
    obtain ⟨st2, ev, sel, h2, h3⟩ := hstep k (by omega)
    rw [hst] at h2
    cases h2
    exact ⟨_, h3, by rw [afterRound_prints, hp]⟩

/-! ## Order of the candidates -/

/-- The indices that pass a filter over `0, ..., n - 1` come in ascending
order: everything before a given one is smaller. -/
theorem filter_range_split (n : Nat) (p : Nat → Bool) (a b : List Nat) (i0 : Nat)
    (h : (List.range n).filter p = a ++ i0 :: b) :
    i0 < n ∧ p i0 = true ∧ ∀ i, i < i0 → p i = true → i ∈ a := by
  have hmem : i0 ∈ (List.range n).filter p := by rw [h]; simp
  have hi0 := List.mem_filter.1 hmem
  refine ⟨List.mem_range.1 hi0.1, hi0.2, ?_⟩
  intro i hi hp
  have hsorted : ((List.range n).filter p).Pairwise (· < ·) :=
    (List.pairwise_lt_range n).filter _
  rw [h, List.pairwise_append] at hsorted
  have hin : i ∈ (List.range n).filter p :=
    List.mem_filter.2 ⟨List.mem_range.2 (by have := List.mem_range.1 hi0.1; omega), hp⟩
  rw [h] at hin
  rcases List.mem_append.1 hin with hin | hin
  · exact hin
  · rcases List.mem_cons.1 hin with hin | hin
    · omega
    · have := (List.pairwise_cons.1 hsorted.2.1).1 i hin
      omega

theorem map_filter_range_split {β : Type} (n : Nat) (p : Nat → Bool) (f : Nat → β)
    (l1 l2 : List β) (sel : β) (h : ((List.range n).filter p).map f = l1 ++ sel :: l2) :
    ∃ i0, i0 < n ∧ p i0 = true ∧ sel = f i0 ∧ ∀ i, i < i0 → p i = true → f i ∈ l1 := by
  obtain ⟨a, r, hfil, ha, hr⟩ := List.map_eq_append_iff.1 h
  obtain ⟨i0, b, hr', hsel, hb⟩ := List.map_eq_cons_iff.1 hr
  subst hr'
  obtain ⟨h1, h2, h3⟩ := filter_range_split n p a b i0 hfil
  refine ⟨i0, h1, h2, hsel.symm, ?_⟩
  intro i hi hp
  rw [← ha]
  exact List.mem_map_of_mem _ (h3 i hi hp)

/-! ## The warning latch -/

theorem afterRound_lt_iff (st : State) (ev : List (List Int)) (sel : Feature_Set) :
    sel.accuracy < (afterRound st ev sel).max.accuracy ↔ sel.accuracy < st.max.accuracy := by
  simp only [afterRound]
  split
  · rename_i h
    constructor
    · intro h'; exact absurd h' (lt_irrefl _)
    · intro h'; exact absurd (lt_trans h h') (lt_irrefl _)
  · exact Iff.rfl

theorem afterRound_warn (st : State) (ev : List (List Int)) (sel : Feature_Set) :
    (afterRound st ev sel).warn = true ↔
      st.warn = true ∧ ¬ sel.accuracy < (afterRound st ev sel).max.accuracy := by
  by_cases hw : st.warn = true <;>
    by_cases hlt : sel.accuracy < (if sel.accuracy > st.max.accuracy then sel else st.max).accuracy <;>
    simp [afterRound, hw, hlt]

theorem afterRound_out (st : State) (ev : List (List Int)) (sel : Feature_Set) :
    ((afterRound st ev sel).out = st.out ++ [Out.warning, Out.print sel] ↔
      st.warn = true ∧ sel.accuracy < (afterRound st ev sel).max.accuracy) ∧
    ((afterRound st ev sel).out = st.out ++ [Out.warning, Out.print sel] ∨
      (afterRound st ev sel).out = st.out ++ [Out.print sel]) := by
  by_cases hw : st.warn = true <;>
    by_cases hlt : sel.accuracy < (if sel.accuracy > st.max.accuracy then sel else st.max).accuracy <;>
    simp [afterRound, hw, hlt]

theorem afterRound_count_warning (st : State) (ev : List (List Int)) (sel : Feature_Set) :
    (afterRound st ev sel).out.count Out.warning =
      st.out.count Out.warning +
        if st.warn = true ∧ sel.accuracy < (afterRound st ev sel).max.accuracy then 1 else 0 := by
  by_cases hw : st.warn = true <;>
    by_cases hlt : sel.accuracy < (if sel.accuracy > st.max.accuracy then sel else st.max).accuracy <;>
    simp [afterRound, hw, hlt, List.count_append, List.count_cons]

theorem selectedIn_step (R : Nat → Option State) (k : Nat) (st : State)
    (ev : List (List Int)) (sel : Feature_Set) (h : R (k + 1) = some (afterRound st ev sel)) :
    selectedIn R k = sel := by
  simp [selectedIn, h, afterRound]

theorem regressedIn_step (R : Nat → Option State) (k : Nat) (st : State)
    (ev : List (List Int)) (sel : Feature_Set) (h : R (k + 1) = some (afterRound st ev sel)) :
    regressedIn R k = true ↔ sel.accuracy < (afterRound st ev sel).max.accuracy := by
  simp only [regressedIn, h, decide_eq_true_eq]
  rfl

theorem warnedIn_step (R : Nat → Option State) (k : Nat) (st : State)
    (ev : List (List Int)) (sel : Feature_Set) (h0 : R k = some st)
    (h : R (k + 1) = some (afterRound st ev sel)) :
    warnedIn R k = true ↔ st.warn = true ∧ regressedIn R k = true := by
  rw [regressedIn_step R k st ev sel h, ← (afterRound_out st ev sel).1]
  simp only [warnedIn, h0, h, decide_eq_true_eq]
  rfl

/-- Along a run, `warn` is still set exactly when no earlier round fell below
the tracked best. -/
theorem warn_of_steps (R : Nat → Option State) (n : Nat)
    (h0 : ∃ st, R 0 = some st ∧ st.warn = true)
    (hstep : ∀ k, k < n → ∃ st ev sel, R k = some st ∧ R (k + 1) = some (afterRound st ev sel)) :
    ∀ k, k ≤ n → ∃ st, R k = some st ∧
      (st.warn = true ↔ ∀ r, r < k → regressedIn R r = false) := by
  intro k
  induction k with
  | zero =>
    intro _
    obtain ⟨st, hst, hw⟩ := h0
    exact ⟨st, hst, by simp [hw]⟩
  | succ k ih =>
    intro hk
    obtain ⟨st, hst, hiff⟩ := ih (by omega)
    obtain ⟨st2, ev, sel, h2, h3⟩ := hstep k (by omega)
    rw [hst] at h2
    cases h2
    refine ⟨_, h3, ?_⟩
    rw [afterRound_warn, hiff, ← regressedIn_step R k st ev sel h3]
    constructor
    · rintro ⟨h1, h2⟩ r hr
      rcases Nat.lt_succ_iff_lt_or_eq.1 hr with hr | hr
      · exact h1 r hr
      · subst hr; simpa using h2
    · intro h
      exact ⟨fun r hr => h r (by omega), by simp [h k (by omega)]⟩

/-- Along a run, the warning is written in round `r` exactly when `r` is the
first round that fell below the tracked best. -/
theorem warnedIn_iff_of_steps (R : Nat → Option State) (n : Nat)
    (h0 : ∃ st, R 0 = some st ∧ st.warn = true)
    (hstep : ∀ k, k < n → ∃ st ev sel, R k = some st ∧ R (k + 1) = some (afterRound st ev sel)) :
    ∀ r, r < n → (warnedIn R r = true ↔
      regressedIn R r = true ∧ ∀ r', r' < r → regressedIn R r' = false) := by
  intro r hr
  obtain ⟨st, hst, hiff⟩ := warn_of_steps R n h0 hstep r (by omega)
  obtain ⟨st2, ev, sel, h2, h3⟩ := hstep r hr
  rw [hst] at h2
  cases h2
  rw [warnedIn_step R r st ev sel hst h3, hiff]
  exact And.comm

/-- Along a run, the output holds no warning while `warn` is set and exactly
one afterwards. -/
theorem count_warning_of_steps (R : Nat → Option State) (n : Nat)
    (h0 : ∃ st, R 0 = some st ∧ st.warn = true ∧ st.out.count Out.warning = 0)
    (hstep : ∀ k, k < n → ∃ st ev sel, R k = some st ∧ R (k + 1) = some (afterRound st ev sel)) :
    ∀ k, k ≤ n → ∃ st, R k = some st ∧
      st.out.count Out.warning = if st.warn = true then 0 else 1 := by
  intro k
  induction k with
  | zero =>
    intro _
    obtain ⟨st, hst, hw, hc⟩ := h0
    exact ⟨st, hst, by simp [hw, hc]⟩
  | succ k ih =>
    intro hk
    obtain ⟨st, hst, hc⟩ := ih (by omega)
    obtain ⟨st2, ev, sel, h2, h3⟩ := hstep k (by omega)
    rw [hst] at h2
    cases h2
    refine ⟨_, h3, ?_⟩
    rw [afterRound_count_warning, hc]
    by_cases hw : st.warn = true <;>
      by_cases hlt : sel.accuracy < (afterRound st ev sel).max.accuracy <;>
      simp [afterRound_warn, hw, hlt]

/-! ## Which round the tracked best comes from -/

/-- Along a run that starts with `max` at accuracy `0` and no features, `max`
is either still that seed, and no round so far selected an accuracy above `0`,
or it is the subset selected in the earliest round of maximal selected
accuracy. -/
theorem max_origin_of_steps (R : Nat → Option State) (n : Nat)
    (h0 : ∃ st, R 0 = some st ∧ st.max = ⟨0, []⟩)
    (hstep : ∀ k, k < n → ∃ st ev sel, R k = some st ∧ R (k + 1) = some (afterRound st ev sel)) :
    ∀ k, k ≤ n → ∃ st, R k = some st ∧
      ((st.max = ⟨0, []⟩ ∧ ∀ j, j < k → (selectedIn R j).accuracy ≤ 0) ∨
       (∃ r, r < k ∧ st.max = selectedIn R r ∧ 0 < (selectedIn R r).accuracy ∧
          (∀ j, j < k → (selectedIn R j).accuracy ≤ (selectedIn R r).accuracy) ∧
          ∀ j, j < r → (selectedIn R j).accuracy < (selectedIn R r).accuracy)) := by
  intro k
  induction k with
  | zero =>
    intro _
    obtain ⟨st, hst, hm⟩ := h0
    exact ⟨st, hst, Or.inl ⟨hm, fun j hj => absurd hj (Nat.not_lt_zero _)⟩⟩
  | succ k ih =>
    intro hk
    obtain ⟨st, hst, hcase⟩ := ih (by omega)
    obtain ⟨st2, ev, sel, h2, h3⟩ := hstep k (by omega)
    rw [hst] at h2
    cases h2
    have hsel : selectedIn R k = sel := selectedIn_step R k st ev sel h3
    refine ⟨_, h3, ?_⟩
    by_cases hgt : sel.accuracy > st.max.accuracy
    · have hmax : (afterRound st ev sel).max = sel := by simp [afterRound, hgt]
      right
      rcases hcase with ⟨hm, hall⟩ | ⟨r, hr, hm, hpos, hall, hbefore⟩
      · rw [hm] at hgt
        have hgt : (0 : ℚ) < sel.accuracy := hgt
        refine ⟨k, by omega, by rw [hmax, hsel], by rw [hsel]; exact hgt, ?_, ?_⟩
        · intro j hj
          rcases Nat.lt_succ_iff_lt_or_eq.1 hj with hj | hj
          · rw [hsel]; exact le_of_lt (lt_of_le_of_lt (hall j hj) hgt)
          · subst hj; exact le_refl _
        · intro j hj
          rw [hsel]; exact lt_of_le_of_lt (hall j hj) hgt
      · rw [hm] at hgt
        have hgt : (selectedIn R r).accuracy < sel.accuracy := hgt
        refine ⟨k, by omega, by rw [hmax, hsel], by rw [hsel]; exact lt_trans hpos hgt, ?_, ?_⟩
        · intro j hj
          rcases Nat.lt_succ_iff_lt_or_eq.1 hj with hj | hj
          · rw [hsel]; exact le_of_lt (lt_of_le_of_lt (hall j hj) hgt)
          · subst hj; exact le_refl _
        · intro j hj
          rw [hsel]; exact lt_of_le_of_lt (hall j hj) hgt
    · have hmax : (afterRound st ev sel).max = st.max := by simp [afterRound, hgt]
      have hle : sel.accuracy ≤ st.max.accuracy := not_lt.1 hgt
      rcases hcase with ⟨hm, hall⟩ | ⟨r, hr, hm, hpos, hall, hbefore⟩
      · left
        refine ⟨by rw [hmax, hm], ?_⟩
        intro j hj
        rcases Nat.lt_succ_iff_lt_or_eq.1 hj with hj | hj
        · exact hall j hj
        · subst hj; rw [hsel]; rw [hm] at hle; exact hle
      · right
        refine ⟨r, by omega, by rw [hmax, hm], hpos, ?_, hbefore⟩
        intro j hj
        rcases Nat.lt_succ_iff_lt_or_eq.1 hj with hj | hj
        · exact hall j hj
        · subst hj; rw [hsel]; rw [hm] at hle; exact hle

theorem selectedIn_Forward (prob : Problem) (size j : Nat) (hj : j < size) :
    ∃ c, selectedIn (ForwardRounds prob size) j = score prob c ∧ c.length = j + 1 := by
  obtain ⟨st, hst, _, _, hlen, htemp⟩ := Forward_reach prob size (j + 1) hj
  exact ⟨st.y, by simp [selectedIn, hst, htemp], hlen⟩

theorem selectedIn_Backward (prob : Problem) (size j : Nat) (hj : j < size) :
    ∃ c, selectedIn (BackwardRounds prob size) j = score prob c ∧
      c.length = size - (j + 1) := by
  obtain ⟨st, hst, _, _, hlen, htemp⟩ := Backward_reach prob size (j + 1) hj
  exact ⟨st.y, by simp [selectedIn, hst, htemp], hlen⟩

/-- Along a run, a round after the first that writes the warning selected an
accuracy strictly below that of the round before it: the round before was not
below the tracked best, so it holds the tracked best. -/
theorem warned_drop_of_steps (R : Nat → Option State) (n : Nat)
    (h0 : ∃ st, R 0 = some st ∧ st.warn = true)
    (hstep : ∀ k, k < n → ∃ st ev sel, R k = some st ∧ R (k + 1) = some (afterRound st ev sel))
    (r : Nat) (hr : r + 1 < n) (hw : warnedIn R (r + 1) = true) :
    (selectedIn R (r + 1)).accuracy < (selectedIn R r).accuracy := by
  obtain ⟨hreg, hfirst⟩ := (warnedIn_iff_of_steps R n h0 hstep (r + 1) hr).1 hw
  have hprev := hfirst r (by omega)
  obtain ⟨st0, ev0, sel0, h00, h01⟩ := hstep r (by omega)
  obtain ⟨st1, ev1, sel1, h10, h11⟩ := hstep (r + 1) hr
  rw [h01] at h10
  cases h10
  rw [selectedIn_step R r st0 ev0 sel0 h01, selectedIn_step R (r + 1) _ ev1 sel1 h11]
  have h1 : sel1.accuracy < (afterRound st0 ev0 sel0).max.accuracy :=
    (afterRound_lt_iff _ ev1 sel1).1 ((regressedIn_step R (r + 1) _ ev1 sel1 h11).1 hreg)
  have h2 : ¬ sel0.accuracy < (afterRound st0 ev0 sel0).max.accuracy := by
    intro h
    have := (regressedIn_step R r st0 ev0 sel0 h01).2 h
    rw [hprev] at this
    exact Bool.false_ne_true this
  exact lt_of_lt_of_le h1 (not_lt.1 h2)

theorem Forward_start (prob : Problem) (size : Nat) :
    ∃ st, ForwardRounds prob size 0 = some st ∧ st.warn = true ∧
      st.out.count Out.warning = 0 ∧ st.max = ⟨0, []⟩ :=
  ⟨_, rfl, rfl, by simp [ForwardInit], rfl⟩

theorem Backward_start (prob : Problem) (size : Nat) :
    ∃ st, BackwardRounds prob size 0 = some st ∧ st.warn = true ∧
      st.out.count Out.warning = 0 ∧ st.max = ⟨0, []⟩ :=
  ⟨_, rfl, rfl, by simp [BackwardInit], rfl⟩

/-- Along a run in which no round fell below the tracked best, the output
holds no warning. -/
theorem no_warning_of_steps (R : Nat → Option State) (n : Nat)
    (h0 : ∃ st, R 0 = some st ∧ st.warn = true ∧ st.out.count Out.warning = 0)
    (hstep : ∀ k, k < n → ∃ st ev sel, R k = some st ∧ R (k + 1) = some (afterRound st ev sel))
    (hno : ∀ r, r < n → regressedIn R r = false) :
    ∃ st, R n = some st ∧ st.out.count Out.warning = 0 := by
  obtain ⟨st, hst, hc⟩ := count_warning_of_steps R n h0 hstep n (le_refl _)
  obtain ⟨st', hst', hiff⟩ :=
    warn_of_steps R n (by obtain ⟨s, h1, h2, _⟩ := h0; exact ⟨s, h1, h2⟩) hstep n (le_refl _)
  rw [hst] at hst'
  cases hst'
  exact ⟨st, hst, by rw [hc, if_pos (hiff.2 hno)]⟩

/-! ## What reaches the evaluator and the queue -/

theorem Forward_evaluated (prob : Problem) (size : Nat) :
    ∀ k, k ≤ size → ∃ st, ForwardRounds prob size k = some st ∧
      ∀ s ∈ st.evaluated, validSubset size s := by
  intro k
  induction k with
  | zero =>
    intro _
    refine ⟨_, rfl, ?_⟩
    intro s hs
    have : s = [] := by simpa [ForwardInit] using hs
    rw [this]; exact validSubset_nil size
  | succ k ih =>
    intro hk
    obtain ⟨st0, hst0, hall⟩ := ih (by omega)
    obtain ⟨st, _, sel, _, hst, _, hv, _, _, _, _, hnext⟩ := Forward_step prob size k hk
    rw [hst0] at hst
    cases hst
    refine ⟨_, hnext, ?_⟩
    intro s hs
    rcases List.mem_append.1 hs with hs | hs
    · exact hall s hs
    · obtain ⟨i, hi, hni, rfl⟩ := (mem_ForwardCandidates size st0.y s).1 hs
      exact validSubset_append size st0.y i hv hi hni

theorem Backward_evaluated (prob : Problem) (size : Nat) :
    ∀ k, k ≤ size → ∃ st, BackwardRounds prob size k = some st ∧
      ∀ s ∈ st.evaluated, validSubset size s := by
  intro k
  induction k with
  | zero =>
    intro _
    refine ⟨_, rfl, ?_⟩
    intro s hs
    have : s = (BackwardInit prob size).y := by simpa [BackwardInit] using hs
    rw [this, BackwardInit_y]; exact validSubset_full size
  | succ k ih =>
    intro hk
    obtain ⟨st0, hst0, hall⟩ := ih (by omega)
    obtain ⟨st, _, sel, _, hst, _, hv, _, _, _, _, hnext⟩ := Backward_step prob size k hk
    rw [hst0] at hst
    cases hst
    refine ⟨_, hnext, ?_⟩
    intro s hs
    rcases List.mem_append.1 hs with hs | hs
    · exact hall s hs
    · obtain ⟨i, _, _, rfl⟩ := (mem_BackwardCandidates size st0.y s).1 hs
      exact validSubset_filter size st0.y _ hv

theorem foldl_push_length (cs q : List Feature_Set) :
    (cs.foldl push q).length = q.length + cs.length := by
  induction cs generalizing q with
  | nil => simp
  | cons c cs ih => rw [List.foldl_cons, ih, push_length, List.length_cons]; omega

theorem foldl_push_mem (cs q : List Feature_Set) :
    ∀ x ∈ cs.foldl push q, x ∈ q ∨ x ∈ cs := by
  induction cs generalizing q with
  | nil => intro x hx; exact Or.inl hx
  | cons c cs ih =>
    intro x hx
    rw [List.foldl_cons] at hx
    rcases ih _ x hx with h | h
    · rcases push_mem q c x h with h | h
      · exact Or.inl h
      · exact Or.inr (by rw [h]; simp)
    · exact Or.inr (List.mem_cons_of_mem _ h)

/-- The queue of a round of `Forward` entered with an empty queue, when `top`
is read: one entry per candidate, each the scored candidate. -/
theorem Forward_queue (prob : Problem) (size : Nat) (st : State) (hq : st.pri_que = []) :
    ((List.range size).foldl (ForwardTry prob) st).pri_que.length =
        (ForwardCandidates size st.y).length ∧
      ∀ x ∈ ((List.range size).foldl (ForwardTry prob) st).pri_que,
        ∃ c ∈ ForwardCandidates size st.y, x = score prob c := by
  have hrw : ((List.range size).foldl (ForwardTry prob) st).pri_que =
      ((ForwardCandidates size st.y).map (score prob)).foldl push [] := by
    rw [ForwardTry_foldl]
    simp [ForwardCandidates, hq, List.map_map, Function.comp_def]
  rw [hrw]
  refine ⟨by simp [foldl_push_length], ?_⟩
  intro x hx
  rcases foldl_push_mem _ _ x hx with h | h
  · simp at h
  · obtain ⟨c, hc, rfl⟩ := List.mem_map.1 h
    exact ⟨c, hc, rfl⟩

/-- The queue of a round of `Backward` entered with an empty queue, when `top`
is read. -/
theorem Backward_queue (prob : Problem) (size : Nat) (st : State) (hq : st.pri_que = []) :
    ((List.range size).foldl (BackwardTry prob) st).pri_que.length =
        (BackwardCandidates size st.y).length ∧
      ∀ x ∈ ((List.range size).foldl (BackwardTry prob) st).pri_que,
        ∃ c ∈ BackwardCandidates size st.y, x = score prob c := by
  have hrw : ((List.range size).foldl (BackwardTry prob) st).pri_que =
      ((BackwardCandidates size st.y).map (score prob)).foldl push [] := by
    rw [BackwardTry_foldl]
    simp [BackwardCandidates, hq, List.map_map, Function.comp_def]
  rw [hrw]
  refine ⟨by simp [foldl_push_length], ?_⟩
  intro x hx
  rcases foldl_push_mem _ _ x hx with h | h
  · simp at h
  · obtain ⟨c, hc, rfl⟩ := List.mem_map.1 h
    exact ⟨c, hc, rfl⟩

/-! ## The claims -/

/-- C1: the scored subset `Forward` reports as the best feature subset has an
accuracy at least that of the subset selected in every round, and hence at
least that of every candidate evaluated in any round.  (Holds for every
evaluator and every `size`; `Forward` always runs to completion.) -/
theorem Forward_best_dominates_rounds (prob : Problem) (size : Nat) :
    ∃ fin, Forward prob size = some fin ∧ fin.out.getLast? = some (Out.best fin.max) ∧
      ∀ j, j < size → ∃ st st', ForwardRounds prob size j = some st ∧
        ForwardRounds prob size (j + 1) = some st' ∧
        st'.temp.accuracy ≤ fin.max.accuracy ∧
        ∀ c ∈ ForwardCandidates size st.y, prob.Nearest_N c ≤ fin.max.accuracy := by
  obtain ⟨stN, _, hN, _, _⟩ :=
    max_mono_of_steps (ForwardRounds prob size) size ⟨_, rfl⟩ (Forward_steps prob size)
      size size (le_refl _) (le_refl _)
  refine ⟨{ stN with out := stN.out ++ [Out.best stN.max] }, by simp [Forward, hN], by simp, ?_⟩
  intro j hj
  obtain ⟨st, l1, sel, l2, hst, _, _, _, hdec, h1, h2, hnext⟩ := Forward_step prob size j hj
  obtain ⟨st1, st2, hst1, hst2, hle⟩ :=
    max_mono_of_steps (ForwardRounds prob size) size ⟨_, rfl⟩ (Forward_steps prob size)
      (j + 1) size (by omega) (le_refl _)
  rw [hN] at hst2
  cases hst2
  rw [hnext] at hst1
  cases hst1
  have hsel : prob.Nearest_N sel ≤ stN.max.accuracy :=
    le_trans (afterRound_temp_le_max st _ (score prob sel)) hle
  refine ⟨st, _, hst, hnext, hsel, ?_⟩
  intro c hc
  rw [hdec] at hc
  rcases List.mem_append.1 hc with hc | hc
  · exact le_trans (le_of_lt (h1 c hc)) hsel
  · rcases List.mem_cons.1 hc with hc | hc
    · rw [hc]; exact hsel
    · exact le_trans (h2 c hc) hsel

/-- C2, evaluated on two runs: the subset reported as best scores below the
starting subset that the same run evaluated and printed first.  `Forward` on
`emptyScoresHigher` reports feature `0` with accuracy `1/4` after printing the
empty subset with `1/2`; `Backward` on `fixture` with one feature reports the
empty subset with `1/2` after printing the full subset with `1`. -/
theorem best_ignores_starting_subset :
    (Forward emptyScoresHigher 1).map State.out =
        some [Out.header 1 4, Out.print ⟨mkRat 1 2, []⟩, Out.print ⟨mkRat 1 4, [0]⟩,
          Out.best ⟨mkRat 1 4, [0]⟩] ∧
      (Backward fixture 1).map State.out =
        some [Out.header 1 4, Out.print ⟨1, [0]⟩, Out.print ⟨mkRat 1 2, []⟩,
          Out.best ⟨mkRat 1 2, []⟩] ∧
      mkRat 1 4 < emptyScoresHigher.Nearest_N [] ∧ mkRat 1 2 < fixture.Nearest_N [0] := by
  decide

/-- C3, evaluated on one run: `Forward` on `featureScoresZero` reports the
empty subset with accuracy `0` as the best feature subset, although the
evaluator gives the empty subset `1/4` (as the first printed line shows). -/
theorem Forward_best_line_mispaired :
    (Forward featureScoresZero 1).map State.out =
        some [Out.header 1 4, Out.print ⟨mkRat 1 4, []⟩, Out.print ⟨0, [0]⟩,
          Out.best ⟨0, []⟩] ∧
      featureScoresZero.Nearest_N [] ≠ 0 := by
  decide

/-- C4: in round `j` of `Forward`, entered with current subset `S = st.y`, the
subsets handed to the evaluator are exactly the candidates `S ++ [i]` for the
`i` in `[0, size)` not in `S`, in ascending `i`; the subset selected is one of
them and its accuracy is the maximum over the candidates of the round. -/
theorem Forward_round_candidates (prob : Problem) (size j : Nat) (hj : j < size) :
    ∃ st st', ForwardRounds prob size j = some st ∧
      ForwardRounds prob size (j + 1) = some st' ∧
      st'.evaluated = st.evaluated ++ ForwardCandidates size st.y ∧
      st'.y ∈ ForwardCandidates size st.y ∧ st'.temp = score prob st'.y ∧
      ∀ c ∈ ForwardCandidates size st.y, prob.Nearest_N c ≤ prob.Nearest_N st'.y := by
  obtain ⟨st, l1, sel, l2, hst, _, _, _, hdec, h1, h2, hnext⟩ := Forward_step prob size j hj
  refine ⟨st, _, hst, hnext, rfl, ?_, rfl, ?_⟩
  · show sel ∈ ForwardCandidates size st.y
    rw [hdec]; simp
  · intro c hc
    show prob.Nearest_N c ≤ prob.Nearest_N sel
    rw [hdec] at hc
    rcases List.mem_append.1 hc with hc | hc
    · exact le_of_lt (h1 c hc)
    · rcases List.mem_cons.1 hc with hc | hc
      · rw [hc]
      · exact h2 c hc

/-- Witness of C4: round 0 of `Forward` on the two-feature fixture. -/
theorem Forward_round_candidates_witness :
    0 < 2 ∧ ∃ st st', ForwardRounds fixture 2 0 = some st ∧
      ForwardRounds fixture 2 (0 + 1) = some st' ∧
      st'.evaluated = st.evaluated ++ ForwardCandidates 2 st.y ∧
      st'.y ∈ ForwardCandidates 2 st.y ∧ st'.temp = score fixture st'.y ∧
      ∀ c ∈ ForwardCandidates 2 st.y, fixture.Nearest_N c ≤ fixture.Nearest_N st'.y :=
  ⟨by decide, Forward_round_candidates fixture 2 0 (by decide)⟩

/-- C5: in round `j` of `Backward`, entered with current subset `S = st.y`,
the subsets handed to the evaluator are exactly the candidates `S` without
`i` for the `i` in `S`, in ascending `i`; the subset selected is one of them
and its accuracy is the maximum over the candidates of the round. -/
theorem Backward_round_candidates (prob : Problem) (size j : Nat) (hj : j < size) :
    ∃ st st', BackwardRounds prob size j = some st ∧
      BackwardRounds prob size (j + 1) = some st' ∧
      st'.evaluated = st.evaluated ++ BackwardCandidates size st.y ∧
      st'.y ∈ BackwardCandidates size st.y ∧ st'.temp = score prob st'.y ∧
      ∀ c ∈ BackwardCandidates size st.y, prob.Nearest_N c ≤ prob.Nearest_N st'.y := by
  obtain ⟨st, l1, sel, l2, hst, _, _, _, hdec, h1, h2, hnext⟩ := Backward_step prob size j hj
  refine ⟨st, _, hst, hnext, rfl, ?_, rfl, ?_⟩
  · show sel ∈ BackwardCandidates size st.y
    rw [hdec]; simp
  · intro c hc
    show prob.Nearest_N c ≤ prob.Nearest_N sel
    rw [hdec] at hc
    rcases List.mem_append.1 hc with hc | hc
    · exact le_of_lt (h1 c hc)
    · rcases List.mem_cons.1 hc with hc | hc
      · rw [hc]
      · exact h2 c hc

/-- Witness of C5: round 1 of `Backward` on the two-feature fixture. -/
theorem Backward_round_candidates_witness :
    1 < 2 ∧ ∃ st st', BackwardRounds fixture 2 1 = some st ∧
      BackwardRounds fixture 2 (1 + 1) = some st' ∧
      st'.evaluated = st.evaluated ++ BackwardCandidates 2 st.y ∧
      st'.y ∈ BackwardCandidates 2 st.y ∧ st'.temp = score fixture st'.y ∧
      ∀ c ∈ BackwardCandidates 2 st.y, fixture.Nearest_N c ≤ fixture.Nearest_N st'.y :=
  ⟨by decide, Backward_round_candidates fixture 2 1 (by decide)⟩

/-- C6: tie-break of a round.  With the queue modelled as the binary heap of
`std::priority_queue` (`push` sifts up while the parent is `<` the new element,
`top` is the front) and `operator<` comparing accuracies only, the candidate
selected in round `j` has maximal accuracy and every candidate with a lower
added (`Forward`) or removed (`Backward`) index has strictly lower accuracy:
among the candidates of maximal accuracy the lowest index wins. -/
theorem round_tie_break (prob : Problem) (size j : Nat) (hj : j < size) :
    (∃ st st', ∃ i0 : Nat, ForwardRounds prob size j = some st ∧
      ForwardRounds prob size (j + 1) = some st' ∧
      i0 < size ∧ (i0 : Int) ∉ st.y ∧ st'.y = st.y ++ [(i0 : Int)] ∧
      (∀ i : Nat, i < size → (i : Int) ∉ st.y →
        prob.Nearest_N (st.y ++ [(i : Int)]) ≤ prob.Nearest_N st'.y) ∧
      (∀ i : Nat, i < i0 → (i : Int) ∉ st.y →
        prob.Nearest_N (st.y ++ [(i : Int)]) < prob.Nearest_N st'.y)) ∧
    (∃ st st', ∃ i0 : Nat, BackwardRounds prob size j = some st ∧
      BackwardRounds prob size (j + 1) = some st' ∧
      i0 < size ∧ (i0 : Int) ∈ st.y ∧ st'.y = erase_remove st.y (i0 : Int) ∧
      (∀ i : Nat, i < size → (i : Int) ∈ st.y →
        prob.Nearest_N (erase_remove st.y (i : Int)) ≤ prob.Nearest_N st'.y) ∧
      (∀ i : Nat, i < i0 → (i : Int) ∈ st.y →
        prob.Nearest_N (erase_remove st.y (i : Int)) < prob.Nearest_N st'.y)) := by
  constructor
  · obtain ⟨st, l1, sel, l2, hst, _, _, _, hdec, h1, h2, hnext⟩ := Forward_step prob size j hj
    obtain ⟨i0, hi0, hp, hsel, hbefore⟩ := map_filter_range_split size _ _ l1 l2 sel hdec
    refine ⟨st, _, i0, hst, hnext, hi0, by simpa using hp, hsel, ?_, ?_⟩
    · intro i hi hni
      show prob.Nearest_N (st.y ++ [(i : Int)]) ≤ prob.Nearest_N sel
      have hc : st.y ++ [(i : Int)] ∈ ForwardCandidates size st.y :=
        (mem_ForwardCandidates _ _ _).2 ⟨i, hi, hni, rfl⟩
      rw [hdec] at hc
      rcases List.mem_append.1 hc with hc | hc
      · exact le_of_lt (h1 _ hc)
      · rcases List.mem_cons.1 hc with hc | hc
        · rw [hc]
        · exact h2 _ hc
    · intro i hi hni
      exact h1 _ (hbefore i hi (by simpa using hni))
  · obtain ⟨st, l1, sel, l2, hst, _, _, _, hdec, h1, h2, hnext⟩ := Backward_step prob size j hj
    obtain ⟨i0, hi0, hp, hsel, hbefore⟩ := map_filter_range_split size _ _ l1 l2 sel hdec
    refine ⟨st, _, i0, hst, hnext, hi0, by simpa using hp, ?_, ?_, ?_⟩
    · rw [erase_remove_eq]; exact hsel
    · intro i hi hni
      show prob.Nearest_N (erase_remove st.y (i : Int)) ≤ prob.Nearest_N sel
      have hc : erase_remove st.y (i : Int) ∈ BackwardCandidates size st.y := by
        rw [erase_remove_eq]
        exact (mem_BackwardCandidates _ _ _).2 ⟨i, hi, hni, rfl⟩
      rw [hdec] at hc
      rcases List.mem_append.1 hc with hc | hc
      · exact le_of_lt (h1 _ hc)
      · rcases List.mem_cons.1 hc with hc | hc
        · rw [hc]
        · exact h2 _ hc
    · intro i hi hni
      rw [erase_remove_eq]
      exact h1 _ (hbefore i hi (by simpa using hni))

/-- Witness of C6: round 0 on the two-feature fixture. -/
theorem round_tie_break_witness :
    0 < 2 ∧
    (∃ st st', ∃ i0 : Nat, ForwardRounds fixture 2 0 = some st ∧
      ForwardRounds fixture 2 (0 + 1) = some st' ∧
      i0 < 2 ∧ (i0 : Int) ∉ st.y ∧ st'.y = st.y ++ [(i0 : Int)] ∧
      (∀ i : Nat, i < 2 → (i : Int) ∉ st.y →
        fixture.Nearest_N (st.y ++ [(i : Int)]) ≤ fixture.Nearest_N st'.y) ∧
      (∀ i : Nat, i < i0 → (i : Int) ∉ st.y →
        fixture.Nearest_N (st.y ++ [(i : Int)]) < fixture.Nearest_N st'.y)) ∧
    (∃ st st', ∃ i0 : Nat, BackwardRounds fixture 2 0 = some st ∧
      BackwardRounds fixture 2 (0 + 1) = some st' ∧
      i0 < 2 ∧ (i0 : Int) ∈ st.y ∧ st'.y = erase_remove st.y (i0 : Int) ∧
      (∀ i : Nat, i < 2 → (i : Int) ∈ st.y →
        fixture.Nearest_N (erase_remove st.y (i : Int)) ≤ fixture.Nearest_N st'.y) ∧
      (∀ i : Nat, i < i0 → (i : Int) ∈ st.y →
        fixture.Nearest_N (erase_remove st.y (i : Int)) < fixture.Nearest_N st'.y)) :=
  ⟨by decide, round_tie_break fixture 2 0 (by decide)⟩

/-- C7: when the evaluator stays within `[0, 1]` and gives the subset `{0}`
accuracy `1`, round 1 of `Forward` selects `{0}` with accuracy `1`, whatever
the other single-feature subsets score. -/
theorem Forward_round_one_selects_zero (prob : Problem) (size : Nat) (hF : 1 ≤ size)
    (hacc : ∀ s, 0 ≤ prob.Nearest_N s ∧ prob.Nearest_N s ≤ 1)
    (h0 : prob.Nearest_N [0] = 1) :
    ∃ st, ForwardRounds prob size 1 = some st ∧ st.temp = ⟨1, [0]⟩ ∧ st.y = [0] ∧
      st.max = ⟨1, [0]⟩ ∧ st.out.getLast? = some (Out.print ⟨1, [0]⟩) := by
  obtain ⟨st, l1, sel, l2, hst, _, _, _, hdec, h1, _, hnext⟩ :=
    Forward_step prob size 0 (by omega)
  have hinit : st = ForwardInit prob size := by
    have : some st = some (ForwardInit prob size) := hst.symm.trans rfl
    exact Option.some.inj this
  subst hinit
  obtain ⟨i0, _, _, hsel, hbefore⟩ := map_filter_range_split size _ _ l1 l2 sel hdec
  have hi0 : i0 = 0 := by
    by_contra hne
    have hlt := h1 _ (hbefore 0 (by omega) (by simp [ForwardInit]))
    simp only [ForwardInit, List.nil_append, Nat.cast_zero] at hlt
    rw [h0] at hlt
    exact absurd (hacc sel).2 (not_le.2 hlt)
  subst hi0
  have hsel0 : sel = [0] := by simpa [ForwardInit] using hsel
  subst hsel0
  refine ⟨_, hnext, ?_, rfl, ?_, ?_⟩
  · simp [afterRound, score, h0]
  · simp [afterRound, score, h0, ForwardInit]
  · simp [afterRound, score, h0]

/-- Witness of C7: the two-feature, four-instance fixture. -/
theorem Forward_round_one_selects_zero_witness :
    (1 ≤ 2 ∧ (∀ s, 0 ≤ fixture.Nearest_N s ∧ fixture.Nearest_N s ≤ 1) ∧
      fixture.Nearest_N [0] = 1) ∧
    ∃ st, ForwardRounds fixture 2 1 = some st ∧ st.temp = ⟨1, [0]⟩ ∧ st.y = [0] ∧
      st.max = ⟨1, [0]⟩ ∧ st.out.getLast? = some (Out.print ⟨1, [0]⟩) :=
  have hacc : ∀ s, 0 ≤ fixture.Nearest_N s ∧ fixture.Nearest_N s ≤ 1 := by
    intro s; simp only [fixture]; split <;> decide
  ⟨⟨by decide, hacc, by decide⟩,
    Forward_round_one_selects_zero fixture 2 (by decide) hacc (by decide)⟩

/-- C8: `Backward` runs to completion after exactly `size` rounds (one `print`
for the starting subset and one per round); round `j` evaluates exactly
`size - j` candidates, never more than `size`; the subset selected in the last
round is empty. -/
theorem Backward_round_counts (prob : Problem) (size : Nat) (hF : 1 ≤ size) :
    (∃ fin, Backward prob size = some fin ∧
      (fin.out.filter Out.isPrint).length = size + 1 ∧
      fin.temp.feat_in = [] ∧ fin.y = []) ∧
    (∃ st fin, BackwardRounds prob size (size - 1) = some st ∧
      BackwardRound prob size st = some fin ∧ fin.temp.feat_in = []) ∧
    ∀ j, j < size → ∃ st st' cands, BackwardRounds prob size j = some st ∧
      BackwardRounds prob size (j + 1) = some st' ∧
      st'.evaluated = st.evaluated ++ cands ∧ cands.length = size - j ∧
      cands.length ≤ size := by
  obtain ⟨stN, hN, _, _, hlen, htemp⟩ := Backward_reach prob size size (le_refl _)
  have hy : stN.y = [] := List.length_eq_zero.1 (by omega)
  obtain ⟨stP, hP, hprints⟩ :=
    prints_of_steps (BackwardRounds prob size) size ⟨_, rfl, by simp [BackwardInit, Out.isPrint]⟩
      (Backward_steps prob size) size (le_refl _)
  rw [hN] at hP
  cases hP
  refine ⟨⟨{ stN with out := stN.out ++ [Out.best stN.max] }, by simp [Backward, hN], ?_, ?_, hy⟩,
    ?_, ?_⟩
  · simp [List.filter_append, Out.isPrint, hprints]
  · show stN.temp.feat_in = []
    rw [htemp, hy]; rfl
  · obtain ⟨st, hst, _⟩ := Backward_reach prob size (size - 1) (by omega)
    have hnext : BackwardRounds prob size (size - 1 + 1) = some stN := by
      rw [Nat.sub_add_cancel hF]; exact hN
    refine ⟨st, stN, hst, ?_, ?_⟩
    · simpa [BackwardRounds, hst] using hnext
    · rw [htemp, hy]; rfl
  · intro j hj
    obtain ⟨st, _, _, _, hst, _, hv, hl, _, _, _, hnext⟩ := Backward_step prob size j hj
    refine ⟨st, _, BackwardCandidates size st.y, hst, hnext, rfl, ?_, ?_⟩
    · rw [BackwardCandidates_length size st.y hv, hl]
    · rw [BackwardCandidates_length size st.y hv, hl]; omega

/-- Witness of C8: `Backward` on the two-feature fixture. -/
theorem Backward_round_counts_witness :
    1 ≤ 2 ∧
    (∃ fin, Backward fixture 2 = some fin ∧
      (fin.out.filter Out.isPrint).length = 2 + 1 ∧
      fin.temp.feat_in = [] ∧ fin.y = []) ∧
    (∃ st fin, BackwardRounds fixture 2 (2 - 1) = some st ∧
      BackwardRound fixture 2 st = some fin ∧ fin.temp.feat_in = []) ∧
    ∀ j, j < 2 → ∃ st st' cands, BackwardRounds fixture 2 j = some st ∧
      BackwardRounds fixture 2 (j + 1) = some st' ∧
      st'.evaluated = st.evaluated ++ cands ∧ cands.length = 2 - j ∧
      cands.length ≤ 2 :=
  ⟨by decide, Backward_round_counts fixture 2 (by decide)⟩

/-- C9: `Forward` never stops early.  For every evaluator it runs to
completion after exactly `size` rounds (one `print` for the starting subset and
one per round); the subset selected in round `j` has `j + 1` indices and is the
previous subset with one index appended; the subset selected in the last round
contains every index of `[0, size)`. -/
theorem Forward_runs_all_rounds (prob : Problem) (size : Nat) :
    (∃ fin, Forward prob size = some fin ∧
      (fin.out.filter Out.isPrint).length = size + 1 ∧
      fin.temp.feat_in = fin.y ∧ ∀ i : Nat, i < size → (i : Int) ∈ fin.y) ∧
    ∀ j, j < size → ∃ st st', ∃ i : Nat, ForwardRounds prob size j = some st ∧
      ForwardRounds prob size (j + 1) = some st' ∧ st'.temp.feat_in = st'.y ∧
      st'.y = st.y ++ [(i : Int)] ∧ st'.y.length = j + 1 := by
  obtain ⟨stN, hN, _, hv, hlen, htemp⟩ := Forward_reach prob size size (le_refl _)
  obtain ⟨stP, hP, hprints⟩ :=
    prints_of_steps (ForwardRounds prob size) size ⟨_, rfl, by simp [ForwardInit, Out.isPrint]⟩
      (Forward_steps prob size) size (le_refl _)
  rw [hN] at hP
  cases hP
  refine ⟨⟨{ stN with out := stN.out ++ [Out.best stN.max] }, by simp [Forward, hN], ?_, ?_, ?_⟩,
    ?_⟩
  · simp [List.filter_append, Out.isPrint, hprints]
  · show stN.temp.feat_in = stN.y
    rw [htemp]; rfl
  · intro i hi
    show (i : Int) ∈ stN.y
    have hcount := count_not_in size stN.y hv
    rw [hlen, Nat.sub_self, List.length_eq_zero, List.filter_eq_nil_iff] at hcount
    have := hcount i (List.mem_range.2 hi)
    simpa using this
  · intro j hj
    obtain ⟨st, l1, sel, l2, hst, _, _, hl, hdec, _, _, hnext⟩ := Forward_step prob size j hj
    have hsel : sel ∈ ForwardCandidates size st.y := by rw [hdec]; simp
    obtain ⟨i, _, _, hseleq⟩ := (mem_ForwardCandidates size st.y sel).1 hsel
    refine ⟨st, _, i, hst, hnext, rfl, hseleq, ?_⟩
    show sel.length = j + 1
    rw [hseleq]; simp [hl]

/-- C10: in `Forward` and in `Backward` the accuracy of the tracked best
subset `max` never decreases from the snapshot after `j` rounds to the
snapshot after `k ≥ j` rounds, for every evaluator. -/
theorem best_so_far_monotone (prob : Problem) (size j k : Nat) (hjk : j ≤ k) (hk : k ≤ size) :
    (∃ st st', ForwardRounds prob size j = some st ∧ ForwardRounds prob size k = some st' ∧
      st.max.accuracy ≤ st'.max.accuracy) ∧
    (∃ st st', BackwardRounds prob size j = some st ∧ BackwardRounds prob size k = some st' ∧
      st.max.accuracy ≤ st'.max.accuracy) := by
  constructor
  · exact max_mono_of_steps (ForwardRounds prob size) size ⟨_, rfl⟩ (Forward_steps prob size)
      j k hjk hk
  · exact max_mono_of_steps (BackwardRounds prob size) size ⟨_, rfl⟩ (Backward_steps prob size)
      j k hjk hk

/-- Witness of C10: the snapshots after rounds 1 and 2 on the two-feature
fixture. -/
theorem best_so_far_monotone_witness :
    (1 ≤ 2 ∧ 2 ≤ 2) ∧
    (∃ st st', ForwardRounds fixture 2 1 = some st ∧ ForwardRounds fixture 2 2 = some st' ∧
      st.max.accuracy ≤ st'.max.accuracy) ∧
    (∃ st st', BackwardRounds fixture 2 1 = some st ∧ BackwardRounds fixture 2 2 = some st' ∧
      st.max.accuracy ≤ st'.max.accuracy) :=
  ⟨by decide, best_so_far_monotone fixture 2 1 2 (by decide) (by decide)⟩

/-- C11: in a run of `Forward` and in a run of `Backward`, for every evaluator
and every `size`, the output holds the warning line at most once. -/
theorem warning_at_most_once (prob : Problem) (size : Nat) :
    (∃ fin, Forward prob size = some fin ∧ fin.out.count Out.warning ≤ 1) ∧
    (∃ fin, Backward prob size = some fin ∧ fin.out.count Out.warning ≤ 1) := by
  constructor
  · obtain ⟨st0, h0, hw, hc, _⟩ := Forward_start prob size
    obtain ⟨st, hst, hcount⟩ :=
      count_warning_of_steps (ForwardRounds prob size) size ⟨st0, h0, hw, hc⟩
        (Forward_steps prob size) size (le_refl _)
    refine ⟨{ st with out := st.out ++ [Out.best st.max] }, by simp [Forward, hst], ?_⟩
    have hbest : List.count Out.warning [Out.best st.max] = 0 := by
      simp [List.count_cons]
    show (st.out ++ [Out.best st.max]).count Out.warning ≤ 1
    rw [List.count_append, hbest, hcount]
    split <;> omega
  · obtain ⟨st0, h0, hw, hc, _⟩ := Backward_start prob size
    obtain ⟨st, hst, hcount⟩ :=
      count_warning_of_steps (BackwardRounds prob size) size ⟨st0, h0, hw, hc⟩
        (Backward_steps prob size) size (le_refl _)
    refine ⟨{ st with out := st.out ++ [Out.best st.max] }, by simp [Backward, hst], ?_⟩
    have hbest : List.count Out.warning [Out.best st.max] = 0 := by
      simp [List.count_cons]
    show (st.out ++ [Out.best st.max]).count Out.warning ≤ 1
    rw [List.count_append, hbest, hcount]
    split <;> omega

/-- C12: in `Forward` and in `Backward`, round `r` writes the warning exactly
when it is the first round whose selected accuracy is strictly below the
tracked best (the comparison gives the same result against `max` before and
after the round's update); a round writes either the warning and the selected
subset or the selected subset alone; and when no round falls below the tracked
best, the output of the run holds no warning. -/
theorem warning_iff_first_regression (prob : Problem) (size r : Nat) (hr : r < size) :
    ((∃ st st', ForwardRounds prob size r = some st ∧
        ForwardRounds prob size (r + 1) = some st' ∧
        (st'.temp.accuracy < st'.max.accuracy ↔ st'.temp.accuracy < st.max.accuracy) ∧
        (st'.out = st.out ++ [Out.warning, Out.print st'.temp] ∨
          st'.out = st.out ++ [Out.print st'.temp])) ∧
      (warnedIn (ForwardRounds prob size) r = true ↔
        regressedIn (ForwardRounds prob size) r = true ∧
          ∀ r', r' < r → regressedIn (ForwardRounds prob size) r' = false) ∧
      ((∀ r', r' < size → regressedIn (ForwardRounds prob size) r' = false) →
        ∃ fin, Forward prob size = some fin ∧ Out.warning ∉ fin.out)) ∧
    ((∃ st st', BackwardRounds prob size r = some st ∧
        BackwardRounds prob size (r + 1) = some st' ∧
        (st'.temp.accuracy < st'.max.accuracy ↔ st'.temp.accuracy < st.max.accuracy) ∧
        (st'.out = st.out ++ [Out.warning, Out.print st'.temp] ∨
          st'.out = st.out ++ [Out.print st'.temp])) ∧
      (warnedIn (BackwardRounds prob size) r = true ↔
        regressedIn (BackwardRounds prob size) r = true ∧
          ∀ r', r' < r → regressedIn (BackwardRounds prob size) r' = false) ∧
      ((∀ r', r' < size → regressedIn (BackwardRounds prob size) r' = false) →
        ∃ fin, Backward prob size = some fin ∧ Out.warning ∉ fin.out)) := by
  constructor
  · obtain ⟨st0, h0, hw, hc, _⟩ := Forward_start prob size
    obtain ⟨st, ev, sel, hst, hnext⟩ := Forward_steps prob size r hr
    refine ⟨⟨st, _, hst, hnext, afterRound_lt_iff st ev sel, (afterRound_out st ev sel).2⟩,
      warnedIn_iff_of_steps _ size ⟨st0, h0, hw⟩ (Forward_steps prob size) r hr, ?_⟩
    intro hno
    obtain ⟨stN, hN, hcount⟩ :=
      no_warning_of_steps _ size ⟨st0, h0, hw, hc⟩ (Forward_steps prob size) hno
    refine ⟨{ stN with out := stN.out ++ [Out.best stN.max] }, by simp [Forward, hN], ?_⟩
    show Out.warning ∉ stN.out ++ [Out.best stN.max]
    intro hmem
    rcases List.mem_append.1 hmem with h | h
    · exact absurd hcount (Nat.ne_of_gt (List.count_pos_iff.2 h))
    · simp at h
  · obtain ⟨st0, h0, hw, hc, _⟩ := Backward_start prob size
    obtain ⟨st, ev, sel, hst, hnext⟩ := Backward_steps prob size r hr
    refine ⟨⟨st, _, hst, hnext, afterRound_lt_iff st ev sel, (afterRound_out st ev sel).2⟩,
      warnedIn_iff_of_steps _ size ⟨st0, h0, hw⟩ (Backward_steps prob size) r hr, ?_⟩
    intro hno
    obtain ⟨stN, hN, hcount⟩ :=
      no_warning_of_steps _ size ⟨st0, h0, hw, hc⟩ (Backward_steps prob size) hno
    refine ⟨{ stN with out := stN.out ++ [Out.best stN.max] }, by simp [Backward, hN], ?_⟩
    show Out.warning ∉ stN.out ++ [Out.best stN.max]
    intro hmem
    rcases List.mem_append.1 hmem with h | h
    · exact absurd hcount (Nat.ne_of_gt (List.count_pos_iff.2 h))
    · simp at h

/-- Witness of C12: round 1 of `Forward` on the two-feature fixture is the first
round below the tracked best and writes the warning. -/
theorem warning_iff_first_regression_witness :
    1 < 2 ∧ warnedIn (ForwardRounds fixture 2) 1 = true ∧
      (warnedIn (ForwardRounds fixture 2) 1 = true ↔
        regressedIn (ForwardRounds fixture 2) 1 = true ∧
          ∀ r', r' < 1 → regressedIn (ForwardRounds fixture 2) r' = false) :=
  ⟨by decide, by decide, (warning_iff_first_regression fixture 2 1 (by decide)).1.2.1⟩

/-- C13 as stated fails: there is no `size` and no evaluator with accuracies in
`[0, 1]` for which `Forward` writes the warning in a round whose selected
accuracy is strictly above that of the round before it while below the
selected accuracy of an earlier round. -/
theorem no_warning_on_improving_round :
    ¬ ∃ (prob : Problem) (size r : Nat),
      (∀ s, 0 ≤ prob.Nearest_N s ∧ prob.Nearest_N s ≤ 1) ∧ r + 1 < size ∧
      warnedIn (ForwardRounds prob size) (r + 1) = true ∧
      (selectedIn (ForwardRounds prob size) r).accuracy <
        (selectedIn (ForwardRounds prob size) (r + 1)).accuracy ∧
      ∃ e, e ≤ r ∧ (selectedIn (ForwardRounds prob size) (r + 1)).accuracy <
        (selectedIn (ForwardRounds prob size) e).accuracy := by
  rintro ⟨prob, size, r, _, hr, hw, himp, _⟩
  obtain ⟨st0, h0, hwarn, _, _⟩ := Forward_start prob size
  have hdrop := warned_drop_of_steps (ForwardRounds prob size) size ⟨st0, h0, hwarn⟩
    (Forward_steps prob size) r hr hw
  exact absurd himp (not_lt.2 (le_of_lt hdrop))

/-- C13, amended: the latch compares with the running maximum, and it fires
once.  For every evaluator, a round of `Forward` after the first that writes
the warning selected an accuracy strictly below that of the round before it.
What the comparison with the running maximum does allow is a later round that
improves on the round before it and is still below an earlier peak: the
comparison holds there, and no warning is written because one was written
before (`peakThenRecover`, accuracies in `[0, 1]`, rounds `1`, `1/4`, `1/2`). -/
theorem warning_round_drops (prob : Problem) (size r : Nat) (hr : r + 1 < size)
    (hw : warnedIn (ForwardRounds prob size) (r + 1) = true) :
    (selectedIn (ForwardRounds prob size) (r + 1)).accuracy <
        (selectedIn (ForwardRounds prob size) r).accuracy ∧
      regressedIn (ForwardRounds prob size) (r + 1) = true ∧
      ((∀ s, 0 ≤ peakThenRecover.Nearest_N s ∧ peakThenRecover.Nearest_N s ≤ 1) ∧
        regressedIn (ForwardRounds peakThenRecover 3) 2 = true ∧
        (selectedIn (ForwardRounds peakThenRecover 3) 1).accuracy <
          (selectedIn (ForwardRounds peakThenRecover 3) 2).accuracy ∧
        (selectedIn (ForwardRounds peakThenRecover 3) 2).accuracy <
          (selectedIn (ForwardRounds peakThenRecover 3) 0).accuracy ∧
        warnedIn (ForwardRounds peakThenRecover 3) 1 = true ∧
        warnedIn (ForwardRounds peakThenRecover 3) 2 = false) := by
  obtain ⟨st0, h0, hwarn, _, _⟩ := Forward_start prob size
  refine ⟨warned_drop_of_steps (ForwardRounds prob size) size ⟨st0, h0, hwarn⟩
    (Forward_steps prob size) r hr hw, ?_, ?_, by decide, by decide, by decide, by decide,
    by decide⟩
  · exact ((warnedIn_iff_of_steps _ size ⟨st0, h0, hwarn⟩ (Forward_steps prob size)
      (r + 1) hr).1 hw).1
  · intro s
    simp only [peakThenRecover]
    split
    · decide
    · split <;> decide

/-- Witness of C13, amended: round 1 of `Forward` on the two-feature fixture
writes the warning; it selected `1/2` after round 0 selected `1`. -/
theorem warning_round_drops_witness :
    (0 + 1 < 2 ∧ warnedIn (ForwardRounds fixture 2) (0 + 1) = true) ∧
      (selectedIn (ForwardRounds fixture 2) (0 + 1)).accuracy <
        (selectedIn (ForwardRounds fixture 2) 0).accuracy :=
  ⟨⟨by decide, by decide⟩, (warning_round_drops fixture 2 0 (by decide) (by decide)).1⟩

/-- C14: every subset that `Forward` or `Backward` hands to the evaluator (the
starting subset and every candidate of every round) is a valid feature subset:
no index occurs twice and every index lies in `[0, size)`. -/
theorem evaluated_subsets_valid (prob : Problem) (size : Nat) :
    (∃ fin, Forward prob size = some fin ∧ ∀ s ∈ fin.evaluated, validSubset size s) ∧
    (∃ fin, Backward prob size = some fin ∧ ∀ s ∈ fin.evaluated, validSubset size s) := by
  constructor
  · obtain ⟨st, hst, hall⟩ := Forward_evaluated prob size size (le_refl _)
    exact ⟨{ st with out := st.out ++ [Out.best st.max] }, by simp [Forward, hst], hall⟩
  · obtain ⟨st, hst, hall⟩ := Backward_evaluated prob size size (le_refl _)
    exact ⟨{ st with out := st.out ++ [Out.best st.max] }, by simp [Backward, hst], hall⟩

/-- C15: when `size ≥ 1` and the evaluator stays within `[0, 1]`, the accuracy
in the last line of `Backward` is the evaluator's accuracy of the subset in
that line.  The last round selects the empty subset; so when every round
selects accuracy `0` and `max` keeps its seed (accuracy `0`, no features), the
evaluator gives the empty subset `0` as well. -/
theorem Backward_best_line_paired (prob : Problem) (size : Nat) (hF : 1 ≤ size)
    (hacc : ∀ s, 0 ≤ prob.Nearest_N s ∧ prob.Nearest_N s ≤ 1) :
    ∃ fin, Backward prob size = some fin ∧ fin.out.getLast? = some (Out.best fin.max) ∧
      fin.max.accuracy = prob.Nearest_N fin.max.feat_in ∧
      selectedIn (BackwardRounds prob size) (size - 1) = score prob [] ∧
      ((∀ j, j < size → (selectedIn (BackwardRounds prob size) j).accuracy = 0) →
        fin.max = ⟨0, []⟩ ∧ prob.Nearest_N [] = 0) := by
  obtain ⟨st0, h0, _, _, hseed⟩ := Backward_start prob size
  obtain ⟨st, hst, hcase⟩ :=
    max_origin_of_steps (BackwardRounds prob size) size ⟨st0, h0, hseed⟩
      (Backward_steps prob size) size (le_refl _)
  obtain ⟨c, hc, hclen⟩ := selectedIn_Backward prob size (size - 1) (by omega)
  have hcnil : c = [] := List.length_eq_zero.1 (by omega)
  subst hcnil
  refine ⟨{ st with out := st.out ++ [Out.best st.max] }, by simp [Backward, hst], by simp,
    ?_, hc, ?_⟩
  · show st.max.accuracy = prob.Nearest_N st.max.feat_in
    rcases hcase with ⟨hm, hall⟩ | ⟨r, hr, hm, _, _, _⟩
    · have hle := hall (size - 1) (by omega)
      rw [hc] at hle
      have hzero : prob.Nearest_N [] = 0 := le_antisymm hle (hacc []).1
      rw [hm]
      exact hzero.symm
    · obtain ⟨c', hc', _⟩ := selectedIn_Backward prob size r hr
      rw [hm, hc']
      rfl
  · intro hzero
    have hlast := hzero (size - 1) (by omega)
    rw [hc] at hlast
    refine ⟨?_, hlast⟩
    show st.max = ⟨0, []⟩
    rcases hcase with ⟨hm, _⟩ | ⟨r, hr, _, hpos, _, _⟩
    · exact hm
    · rw [hzero r hr] at hpos
      exact absurd hpos (lt_irrefl _)

/-- Witness of C15: `Backward` on `onlyFullScores`, where every round selects
accuracy `0` and `max` keeps its seed. -/
theorem Backward_best_line_paired_witness :
    (1 ≤ 2 ∧ (∀ s, 0 ≤ onlyFullScores.Nearest_N s ∧ onlyFullScores.Nearest_N s ≤ 1) ∧
      ∀ j, j < 2 → (selectedIn (BackwardRounds onlyFullScores 2) j).accuracy = 0) ∧
    ∃ fin, Backward onlyFullScores 2 = some fin ∧
      fin.out.getLast? = some (Out.best fin.max) ∧
      fin.max.accuracy = onlyFullScores.Nearest_N fin.max.feat_in ∧
      selectedIn (BackwardRounds onlyFullScores 2) (2 - 1) = score onlyFullScores [] ∧
      ((∀ j, j < 2 → (selectedIn (BackwardRounds onlyFullScores 2) j).accuracy = 0) →
        fin.max = ⟨0, []⟩ ∧ onlyFullScores.Nearest_N [] = 0) :=
  have hacc : ∀ s, 0 ≤ onlyFullScores.Nearest_N s ∧ onlyFullScores.Nearest_N s ≤ 1 := by
    intro s; simp only [onlyFullScores]; split <;> decide
  ⟨⟨by decide, hacc, by decide⟩, Backward_best_line_paired onlyFullScores 2 (by decide) hacc⟩

/-- C16: in `Forward` and in `Backward`, when some round selects an accuracy
above `0`, the subset reported as best is the one selected in the earliest
round of maximal selected accuracy: every round is at most as accurate, every
earlier round is strictly less accurate, so a later round of equal accuracy
does not replace it.  Later rounds hold more indices in `Forward` and fewer in
`Backward`. -/
theorem best_is_earliest_maximal_round (prob : Problem) (size : Nat) :
    ((∃ j, j < size ∧ 0 < (selectedIn (ForwardRounds prob size) j).accuracy) →
      ∃ fin r, Forward prob size = some fin ∧ r < size ∧
        fin.max = selectedIn (ForwardRounds prob size) r ∧
        fin.out.getLast? = some (Out.best (selectedIn (ForwardRounds prob size) r)) ∧
        (∀ j, j < size → (selectedIn (ForwardRounds prob size) j).accuracy ≤
          (selectedIn (ForwardRounds prob size) r).accuracy) ∧
        (∀ j, j < r → (selectedIn (ForwardRounds prob size) j).accuracy <
          (selectedIn (ForwardRounds prob size) r).accuracy) ∧
        ∀ j, r < j → j < size →
          (selectedIn (ForwardRounds prob size) r).feat_in.length <
            (selectedIn (ForwardRounds prob size) j).feat_in.length) ∧
    ((∃ j, j < size ∧ 0 < (selectedIn (BackwardRounds prob size) j).accuracy) →
      ∃ fin r, Backward prob size = some fin ∧ r < size ∧
        fin.max = selectedIn (BackwardRounds prob size) r ∧
        fin.out.getLast? = some (Out.best (selectedIn (BackwardRounds prob size) r)) ∧
        (∀ j, j < size → (selectedIn (BackwardRounds prob size) j).accuracy ≤
          (selectedIn (BackwardRounds prob size) r).accuracy) ∧
        (∀ j, j < r → (selectedIn (BackwardRounds prob size) j).accuracy <
          (selectedIn (BackwardRounds prob size) r).accuracy) ∧
        ∀ j, r < j → j < size →
          (selectedIn (BackwardRounds prob size) j).feat_in.length <
            (selectedIn (BackwardRounds prob size) r).feat_in.length) := by
  constructor
  · rintro ⟨j0, hj0, hpos0⟩
    obtain ⟨st0, h0, _, _, hseed⟩ := Forward_start prob size
    obtain ⟨st, hst, hcase⟩ :=
      max_origin_of_steps (ForwardRounds prob size) size ⟨st0, h0, hseed⟩
        (Forward_steps prob size) size (le_refl _)
    rcases hcase with ⟨_, hall⟩ | ⟨r, hr, hm, _, hall, hbefore⟩
    · exact absurd hpos0 (not_lt.2 (hall j0 hj0))
    · refine ⟨{ st with out := st.out ++ [Out.best st.max] }, r, by simp [Forward, hst], hr,
        hm, by simp [hm], hall, hbefore, ?_⟩
      intro j hrj hj
      obtain ⟨c, hc, hcl⟩ := selectedIn_Forward prob size r hr
      obtain ⟨c', hc', hcl'⟩ := selectedIn_Forward prob size j hj
      rw [hc, hc']
      show c.length < c'.length
      omega
  · rintro ⟨j0, hj0, hpos0⟩
    obtain ⟨st0, h0, _, _, hseed⟩ := Backward_start prob size
    obtain ⟨st, hst, hcase⟩ :=
      max_origin_of_steps (BackwardRounds prob size) size ⟨st0, h0, hseed⟩
        (Backward_steps prob size) size (le_refl _)
    rcases hcase with ⟨_, hall⟩ | ⟨r, hr, hm, _, hall, hbefore⟩
    · exact absurd hpos0 (not_lt.2 (hall j0 hj0))
    · refine ⟨{ st with out := st.out ++ [Out.best st.max] }, r, by simp [Backward, hst], hr,
        hm, by simp [hm], hall, hbefore, ?_⟩
      intro j hrj hj
      obtain ⟨c, hc, hcl⟩ := selectedIn_Backward prob size r hr
      obtain ⟨c', hc', hcl'⟩ := selectedIn_Backward prob size j hj
      rw [hc, hc']
      show c'.length < c.length
      omega

/-- Witness of C16: on the two-feature fixture round 0 of `Forward` selects
accuracy `1` and round 0 of `Backward` selects accuracy `1`. -/
theorem best_is_earliest_maximal_round_witness :
    (∃ fin r, Forward fixture 2 = some fin ∧ r < 2 ∧
      fin.max = selectedIn (ForwardRounds fixture 2) r) ∧
    (∃ fin r, Backward fixture 2 = some fin ∧ r < 2 ∧
      fin.max = selectedIn (BackwardRounds fixture 2) r) :=
  ⟨by
    obtain ⟨fin, r, h1, h2, h3, _⟩ :=
      (best_is_earliest_maximal_round fixture 2).1 ⟨0, by decide, by decide⟩
    exact ⟨fin, r, h1, h2, h3⟩,
   by
    obtain ⟨fin, r, h1, h2, h3, _⟩ :=
      (best_is_earliest_maximal_round fixture 2).2 ⟨0, by decide, by decide⟩
    exact ⟨fin, r, h1, h2, h3⟩⟩

/-- C17: in round `j` of `Forward` and of `Backward` the queue is empty when the
round is entered, holds exactly `size - j ≥ 1` entries when `top` is read, each
of them a scored candidate of this round, so `top` returns an entry, and is
empty again when the next round is entered. -/
theorem queue_nonempty_at_top (prob : Problem) (size j : Nat) (hj : j < size) :
    (∃ st st', ForwardRounds prob size j = some st ∧ st.pri_que = [] ∧
      ((List.range size).foldl (ForwardTry prob) st).pri_que.length = size - j ∧
      1 ≤ ((List.range size).foldl (ForwardTry prob) st).pri_que.length ∧
      (∃ t, top ((List.range size).foldl (ForwardTry prob) st).pri_que = some t) ∧
      (∀ x ∈ ((List.range size).foldl (ForwardTry prob) st).pri_que,
        ∃ c ∈ ForwardCandidates size st.y, x = score prob c) ∧
      ForwardRound prob size st = some st' ∧
      ForwardRounds prob size (j + 1) = some st' ∧ st'.pri_que = []) ∧
    (∃ st st', BackwardRounds prob size j = some st ∧ st.pri_que = [] ∧
      ((List.range size).foldl (BackwardTry prob) st).pri_que.length = size - j ∧
      1 ≤ ((List.range size).foldl (BackwardTry prob) st).pri_que.length ∧
      (∃ t, top ((List.range size).foldl (BackwardTry prob) st).pri_que = some t) ∧
      (∀ x ∈ ((List.range size).foldl (BackwardTry prob) st).pri_que,
        ∃ c ∈ BackwardCandidates size st.y, x = score prob c) ∧
      BackwardRound prob size st = some st' ∧
      BackwardRounds prob size (j + 1) = some st' ∧ st'.pri_que = []) := by
  constructor
  · obtain ⟨st, _, sel, _, hst, hq, hv, hlen, _, _, _, hnext⟩ := Forward_step prob size j hj
    obtain ⟨hql, hqm⟩ := Forward_queue prob size st hq
    have hcount : ((List.range size).foldl (ForwardTry prob) st).pri_que.length = size - j := by
      rw [hql, ForwardCandidates_length size st.y hv, hlen]
    have hround : ForwardRound prob size st = ForwardRounds prob size (j + 1) := by
      simp [ForwardRounds, hst]
    refine ⟨st, _, hst, hq, hcount, by omega, ?_, hqm, by rw [hround, hnext], hnext, rfl⟩
    cases hqueue : ((List.range size).foldl (ForwardTry prob) st).pri_que with
    | nil => rw [hqueue] at hcount; simp at hcount; omega
    | cons t q => exact ⟨t, rfl⟩
  · obtain ⟨st, _, sel, _, hst, hq, hv, hlen, _, _, _, hnext⟩ := Backward_step prob size j hj
    obtain ⟨hql, hqm⟩ := Backward_queue prob size st hq
    have hcount : ((List.range size).foldl (BackwardTry prob) st).pri_que.length = size - j := by
      rw [hql, BackwardCandidates_length size st.y hv, hlen]
    have hround : BackwardRound prob size st = BackwardRounds prob size (j + 1) := by
      simp [BackwardRounds, hst]
    refine ⟨st, _, hst, hq, hcount, by omega, ?_, hqm, by rw [hround, hnext], hnext, rfl⟩
    cases hqueue : ((List.range size).foldl (BackwardTry prob) st).pri_que with
    | nil => rw [hqueue] at hcount; simp at hcount; omega
    | cons t q => exact ⟨t, rfl⟩

/-- Witness of C17: round 1 of both drivers on the two-feature fixture. -/
theorem queue_nonempty_at_top_witness :
    1 < 2 ∧
    (∃ st st', ForwardRounds fixture 2 1 = some st ∧ st.pri_que = [] ∧
      ((List.range 2).foldl (ForwardTry fixture) st).pri_que.length = 2 - 1 ∧
      ForwardRounds fixture 2 (1 + 1) = some st' ∧ st'.pri_que = []) ∧
    (∃ st st', BackwardRounds fixture 2 1 = some st ∧ st.pri_que = [] ∧
      ((List.range 2).foldl (BackwardTry fixture) st).pri_que.length = 2 - 1 ∧
      BackwardRounds fixture 2 (1 + 1) = some st' ∧ st'.pri_que = []) :=
  ⟨by decide, by
    obtain ⟨⟨st, st', h1, h2, h3, _, _, _, _, h4, h5⟩, ⟨bt, bt', b1, b2, b3, _, _, _, _, b4, b5⟩⟩ :=
      queue_nonempty_at_top fixture 2 1 (by decide)
    exact ⟨⟨st, st', h1, h2, h3, h4, h5⟩, ⟨bt, bt', b1, b2, b3, b4, b5⟩⟩⟩

/-- C18: `is_in(index, v)` returns `true` exactly when `index` occurs in `v`; in
particular it returns `false` on the empty vector. -/
theorem is_in_spec (index : Int) (v : List Int) :
    (is_in index v = true ↔ index ∈ v) ∧ is_in index [] = false := by
  refine ⟨?_, rfl⟩
  induction v with
  | nil => simp [is_in]
  | cons x v ih =>
    by_cases h : index = x
    · simp [is_in, h]
    · simp [is_in, h, ih]

end FeatureSelection
